import Mathlib

/-!
# godiffyaml: path resolution, document ordering, file naming, argument splitting

A shallow embedding of `internal/docs/docs.go`, `internal/cmd/diff.go`,
`internal/cmd/k8s.go` and the sorting part of `internal/cmd/sort.go`.

Conventions of the embedding.

* A Go `string` is a Lean `String`.  The documents come out of a YAML decoder, so
  their strings are valid UTF-8, and for such strings Go's bytewise `<` is the
  lexicographic order on code points, which is what `stringLess` computes.
* A Go value of type `any` stored in a document is a `Value`; the constructors are
  the dynamic types that `GetValueByPath` tells apart, plus `seq`, `null` and
  `other` for everything that falls into its `default:` branch or fails the
  `.(Doc)` assertion.
* Functions of the Go standard library whose text is not part of the repository
  and whose result the properties below do not depend on (`%g` formatting,
  `filepath.Join`, the outcome of `os.Stat`, `os.Create` and the YAML encoder, the
  pseudo-random step of package `sort`) are fields of `Env`.
* `sort.Sort` is the pattern-defeating quicksort of package `sort` (Go 1.19 and
  later; the repository imports `slices`, so it is built with Go 1.21 or later),
  run on a `Docs` through `Less` and `Swap`.  Loops whose number of rounds is fixed
  by their bounds recurse on that number; `pdqsort` recurses on a fuel that
  `sort.Sort` sets to the length plus one, and `none` also stands for its end.
* A run-time panic (index out of range) is `none`.
-/

namespace GoDiffYaml

set_option linter.dupNamespace false
set_option maxRecDepth 100000

/-! ## Data model -/

mutual
/-- A dynamically typed value held in a `Doc` (`any`).  `int` is Go `int`, `uint` a
`uint64` (what the YAML decoder yields for an integer above the range of `int`),
`float` a `float64` given by its bit pattern, `doc` a nested `Doc` (a mapping all of
whose keys are strings), `mapAny` a `map[any]any` (what the decoder yields for a
mapping with a key that is not a string), `seq` a `[]any`, `null` the nil interface,
`other` any further dynamic type (`time.Time`, ...). -/
inductive Value where
  | null
  | str (s : String)
  | int (i : Int)
  | uint (n : Nat)
  | float (bits : Nat)
  | bool (b : Bool)
  | seq (items : List Value)
  | doc (d : Doc)
  | mapAny (entries : List (Value × Value))
  | other
/-- Go `type Doc map[string]any`: the nil map, or a map given by its entries
(looked up by the first entry of a key). -/
inductive Doc where
  | nil
  | map (entries : List (String × Value))
end

/-- The parts of the environment that the source calls but does not define. -/
structure Env where
  /-- The text `fmt.Sprintf("%g", v)` for the `float64` with these bits. -/
  fmtG : Nat → String
  /-- The result of `filepath.Join(dir, name)`. -/
  filepathJoin : String → String → String
  /-- Whether `os.Stat(path)` fails with an error other than not-exist (name too
  long, permission denied, a parent that is not a directory). -/
  statFails : String → Bool
  /-- Whether `os.Create(path)` succeeds. -/
  createOk : String → Bool
  /-- Whether `encoder.Encode(doc)` succeeds. -/
  encodeOk : Doc → Bool
  /-- The step `xorshift.Next` of the pseudo-random generator of package `sort`, from
  one state to the next (its shift constants differ between Go releases). -/
  xorshiftNext : Nat → Nat

/-- Go `type Docs struct { Docs []Doc; Order []string }`. -/
structure Docs where
  Docs : List Doc
  Order : List String

/-- Errors built with `fmt.Errorf` in `diff.go`; each constructor stands for one
format string, its arguments are the `%s` arguments (`alreadyExists` prints
`filepath.Base(filePath)`), `cause` is the wrapped `%v`. -/
inductive Error where
  | noValuesFound (paths inputFile : String)
  | alreadyExists (filePath paths inputFile : String)
  | createFailed (filePath : String)
  | encodeFailed
  | getDocFilePathFailed (cause : Error)
  | getFileToWriteFailed (cause : Error)

/-- The fields of Go `DiffCommand`; `flagNames` are the names of the flags
registered in `flagSet`, which is all that `parseArgs` reads from it. -/
structure DiffCommand where
  flagNames : List String
  dir : String
  filename1 : String
  filename2 : String
  paths : String
  display : String
  argsDifftastic : List String

/-- The target directory while `writeYamlDocs` runs: the paths of the existing files
and, in order, the documents encoded so far with the file each went to. -/
structure World where
  files : List String
  written : List (String × Doc)

/-! ## Library functions with a fixed meaning -/

/-- Go `strings.HasPrefix`. -/
def HasPrefix (s pre : String) : Bool :=
  pre.data.isPrefixOf s.data

/-- Go `strings.TrimPrefix`. -/
def TrimPrefix (s pre : String) : String :=
  if HasPrefix s pre then String.mk (s.data.drop pre.data.length) else s

/-- Splitting a character list at every `sep`; never empty. -/
def splitChars (sep : Char) : List Char → List (List Char)
  | [] => [[]]
  | c :: cs =>
    if c = sep then [] :: splitChars sep cs
    else
      match splitChars sep cs with
      | [] => [[c]]
      | h :: t => (c :: h) :: t

/-- Go `strings.Split(s, sep)` for a separator of one character. -/
def Split (s : String) (sep : Char) : List String :=
  (splitChars sep s.data).map String.mk

/-- Go `strings.ReplaceAll(s, old, new)` for one-character `old` and `new`. -/
def ReplaceAll (s : String) (old new : Char) : String :=
  String.mk (s.data.map fun c => if c = old then new else c)

/-- Go `strings.Join(elems, sep)`. -/
def Join : List String → String → String
  | [], _ => ""
  | [a], _ => a
  | a :: b :: rest, sep => a ++ sep ++ Join (b :: rest) sep

/-- Go `fmt.Sprintf("%d", v)` for an `int`. -/
def Sprintf_d : Int → String
  | Int.ofNat n => Nat.repr n
  | Int.negSucc n => "-" ++ Nat.repr (n + 1)

/-- Go `fmt.Sprintf("%v", v)` for a `bool`. -/
def Sprintf_v (v : Bool) : String :=
  if v then "true" else "false"

/-- Lexicographic comparison of character lists by code point. -/
def ltChars : List Char → List Char → Bool
  | _, [] => false
  | [], _ :: _ => true
  | a :: as, b :: bs =>
    if a.toNat < b.toNat then true
    else if b.toNat < a.toNat then false
    else ltChars as bs

/-- Go `a < b` on strings. -/
def stringLess (a b : String) : Bool :=
  ltChars a.data b.data

/-! ## `internal/docs/docs.go` -/

/-- Go `current[part]`: the nil interface for a nil map or an absent key. -/
def Doc.index : Doc → String → Value
  | Doc.nil, _ => Value.null
  | Doc.map entries, key => (entries.lookup key).getD Value.null

/-- The `for i, part := range parts` loop of `GetValueByPath`; `rest = []` is
`i == len(parts)-1`. -/
def Doc.GetValueByPath.loop (env : Env) : Doc → List String → String
  | _, [] => ""
  | current, part :: rest =>
    match current with
    | Doc.nil => ""
    | Doc.map _ =>
      if rest.isEmpty then
        match current.index part with
        | Value.str v => v
        | Value.int v => Sprintf_d v
        | Value.float v => env.fmtG v
        | Value.bool v => Sprintf_v v
        | _ => ""
      else
        match current.index part with
        | Value.doc next => Doc.GetValueByPath.loop env next rest
        | _ => ""

/-- Go `func (d *Doc) GetValueByPath(path string) string`. -/
def Doc.GetValueByPath (env : Env) (d : Doc) (path : String) : String :=
  let path := TrimPrefix path "."
  let parts := Split path '.'
  Doc.GetValueByPath.loop env d parts

/-- Go `func (d Docs) Len() int`. -/
def Docs.Len (d : GoDiffYaml.Docs) : Nat :=
  d.Docs.length

/-- Go `func (d Docs) Swap(i, j int)`; `none` when an index is out of range. -/
def Docs.Swap (d : GoDiffYaml.Docs) (i j : Nat) : Option GoDiffYaml.Docs :=
  match d.Docs[i]?, d.Docs[j]? with
  | some di, some dj => some { d with Docs := (d.Docs.set i dj).set j di }
  | _, _ => none

/-- The `for _, path := range d.Order` loop of `Less`. -/
def Docs.Less.loop (env : Env) (d : GoDiffYaml.Docs) (i j : Nat) : List String → Option Bool
  | [] => some false
  | path :: rest =>
    match d.Docs[i]?, d.Docs[j]? with
    | some di, some dj =>
      let valI := di.GetValueByPath env path
      let valJ := dj.GetValueByPath env path
      if valI ≠ valJ then some (stringLess valI valJ)
      else Docs.Less.loop env d i j rest
    | _, _ => none

/-- Go `func (d Docs) Less(i, j int) bool`; `none` when an index is out of range. -/
def Docs.Less (env : Env) (d : GoDiffYaml.Docs) (i j : Nat) : Option Bool :=
  Docs.Less.loop env d i j d.Order

/-! ## `internal/cmd/diff.go`, `internal/cmd/k8s.go` -/

/-- Go `NewDiffCommand`: flags `paths` and `display` (listed as `VisitAll` does). -/
def NewDiffCommand : DiffCommand :=
  { flagNames := ["display", "paths"], dir := "", filename1 := "", filename2 := "",
    paths := "", display := "side-by-side-show-both", argsDifftastic := [] }

/-- Go `NewK8SCommand`: flag `display` only, `paths` preset. -/
def NewK8SCommand : DiffCommand :=
  { flagNames := ["display"], dir := "", filename1 := "", filename2 := "",
    paths := "apiVersion,kind,metadata.namespace,metadata.name",
    display := "side-by-side-show-both", argsDifftastic := [] }

/-- The inner `for _, known := range argsKnown` loop of `parseArgs`: the value of
`knownFound` after it. -/
def DiffCommand.parseArgs.knownFound (arg : String) : List String → Bool
  | [] => false
  | known :: rest =>
    if HasPrefix arg ("-" ++ known) || HasPrefix arg ("--" ++ known) then true
    else DiffCommand.parseArgs.knownFound arg rest

/-- The outer `for _, arg := range args` loop of `parseArgs` on the pair
`(argsParse, cmd.argsDifftastic)`. -/
def DiffCommand.parseArgs.loop (argsKnown : List String) :
    List String → List String × List String → List String × List String
  | [], st => st
  | arg :: rest, (argsParse, argsDifftastic) =>
    if DiffCommand.parseArgs.knownFound arg argsKnown then
      DiffCommand.parseArgs.loop argsKnown rest (argsParse ++ [arg], argsDifftastic)
    else if HasPrefix arg "-" then
      DiffCommand.parseArgs.loop argsKnown rest (argsParse, argsDifftastic ++ [arg])
    else
      DiffCommand.parseArgs.loop argsKnown rest (argsParse ++ [arg], argsDifftastic)

/-- Go `func (cmd *DiffCommand) parseArgs(args []string) error` up to the call
`cmd.flagSet.Parse(argsParse)`: the list handed to the flag parser and the command
with its `argsDifftastic` extended. -/
def DiffCommand.parseArgs (cmd : DiffCommand) (args : List String) :
    List String × DiffCommand :=
  let argsKnown := cmd.flagNames
  let st := DiffCommand.parseArgs.loop argsKnown args ([], cmd.argsDifftastic)
  (st.1, { cmd with argsDifftastic := st.2 })

/-- The `for _, path := range strings.Split(cmd.paths, ",")` loop of
`getDocFilePath` on `filenameParts` (the warning printed for a skipped path goes to
standard error and is not part of the result). -/
def DiffCommand.getDocFilePath.loop (env : Env) (doc : Doc) :
    List String → List String → List String
  | [], filenameParts => filenameParts
  | path :: rest, filenameParts =>
    let value := doc.GetValueByPath env path
    if value = "" then DiffCommand.getDocFilePath.loop env doc rest filenameParts
    else
      let value := ReplaceAll value '/' '_'
      DiffCommand.getDocFilePath.loop env doc rest (filenameParts ++ [value])

/-- Go `func (cmd *DiffCommand) getDocFilePath(doc, writeDir, inputFile) (string, error)`. -/
def DiffCommand.getDocFilePath (env : Env) (cmd : DiffCommand) (doc : Doc)
    (writeDir inputFile : String) : String × Option Error :=
  let filenameParts := DiffCommand.getDocFilePath.loop env doc (Split cmd.paths ',') []
  if filenameParts.length = 0 then
    ("", some (Error.noValuesFound cmd.paths inputFile))
  else
    let fileName := Join filenameParts "_" ++ ".yaml"
    (env.filepathJoin writeDir fileName, none)

/-- Go `func (cmd *DiffCommand) getFileToWrite(filePath, inputFile) (*os.File, error)`
on the set of existing files.  `os.Stat` returns no error when the path is in the
set, an error other than not-exist when `statFails`, and not-exist otherwise; the
test `!os.IsNotExist(err)` holds in the first two cases.  `os.Create` adds the path. -/
def DiffCommand.getFileToWrite (env : Env) (cmd : DiffCommand) (filePath inputFile : String)
    (files : List String) : Option Error × List String :=
  if filePath ∈ files ∨ env.statFails filePath = true then
    (some (Error.alreadyExists filePath cmd.paths inputFile), files)
  else if env.createOk filePath then (none, filePath :: files)
  else (some (Error.createFailed filePath), files)

/-- The `for _, doc := range docs` loop of `writeYamlDocs`. -/
def DiffCommand.writeYamlDocs.loop (env : Env) (cmd : DiffCommand) (writeDir inputYaml : String) :
    List Doc → World → Option Error × World
  | [], w => (none, w)
  | doc :: rest, w =>
    match cmd.getDocFilePath env doc writeDir inputYaml with
    | (_, some err) => (some (Error.getDocFilePathFailed err), w)
    | (filePath, none) =>
      match cmd.getFileToWrite env filePath inputYaml w.files with
      | (some err, files) => (some (Error.getFileToWriteFailed err), { w with files := files })
      | (none, files) =>
        if env.encodeOk doc then
          DiffCommand.writeYamlDocs.loop env cmd writeDir inputYaml rest
            { files := files, written := w.written ++ [(filePath, doc)] }
        else (some Error.encodeFailed, { w with files := files })

/-- Go `func (cmd *DiffCommand) writeYamlDocs(writeDir, docs, inputYaml) error`, run in
the directory state `w`. -/
def DiffCommand.writeYamlDocs (env : Env) (cmd : DiffCommand) (writeDir : String)
    (docs : List Doc) (inputYaml : String) (w : World) : Option Error × World :=
  DiffCommand.writeYamlDocs.loop env cmd writeDir inputYaml docs w

/-! ## Go standard library: `sort.Sort` -/

/-- The loop behind `bits.Len`: the number of binary digits of `n`. -/
def bits.Len.loop : Nat → Nat → Nat
  | 0, _ => 0
  | fuel + 1, n => if n = 0 then 0 else bits.Len.loop fuel (n / 2) + 1

/-- Go `bits.Len(uint(n))`. -/
def bits.Len (n : Nat) : Nat :=
  bits.Len.loop n n

/-- Go `type sortedHint int` with its three constants. -/
inductive sort.sortedHint where
  | unknownHint
  | increasingHint
  | decreasingHint
  deriving DecidableEq

/-- The inner loop `for j := i; j > a && data.Less(j, j-1); j--` of `insertionSort`,
started at `j`. -/
def sort.insertionSort.inner (env : Env) (a : Nat) : Nat → Docs → Option Docs
  | 0, data => some data
  | j + 1, data =>
    if a < j + 1 then
      match data.Less env (j + 1) j with
      | none => none
      | some false => some data
      | some true =>
        match data.Swap (j + 1) j with
        | none => none
        | some data1 => sort.insertionSort.inner env a j data1
    else some data

/-- The outer loop `for i := a + 1; i < b; i++` of `insertionSort` with `n` rounds left,
at `i`. -/
def sort.insertionSort.outer (env : Env) (a : Nat) : Nat → Nat → Docs → Option Docs
  | 0, _, data => some data
  | n + 1, i, data =>
    match sort.insertionSort.inner env a i data with
    | none => none
    | some data1 => sort.insertionSort.outer env a n (i + 1) data1

/-- Go `func insertionSort(data Interface, a, b int)`. -/
def sort.insertionSort (env : Env) (data : Docs) (a b : Nat) : Option Docs :=
  sort.insertionSort.outer env a (b - (a + 1)) (a + 1) data

/-- The loop of `siftDown` at `root`; `root` grows in every round, so `hi - root`
rounds reach `child >= hi`. -/
def sort.siftDown.loop (env : Env) (hi first : Nat) : Nat → Nat → Docs → Option Docs
  | 0, _, data => some data
  | fuel + 1, root, data =>
    let child := 2 * root + 1
    if child ≥ hi then some data
    else do
      let right ← if child + 1 < hi then data.Less env (first + child) (first + child + 1)
        else some false
      let child := if right then child + 1 else child
      let below ← data.Less env (first + root) (first + child)
      if !below then some data
      else
        let data ← data.Swap (first + root) (first + child)
        sort.siftDown.loop env hi first fuel child data

/-- Go `func siftDown(data Interface, lo, hi, first int)`. -/
def sort.siftDown (env : Env) (data : Docs) (lo hi first : Nat) : Option Docs :=
  sort.siftDown.loop env hi first (hi - lo) lo data

/-- The loop `for i := (hi - 1) / 2; i >= 0; i--` of `heapSort`, at `i`. -/
def sort.heapSort.build (env : Env) (hi first : Nat) : Nat → Docs → Option Docs
  | 0, data => sort.siftDown env data 0 hi first
  | i + 1, data => do
    let data ← sort.siftDown env data (i + 1) hi first
    sort.heapSort.build env hi first i data

/-- The loop `for i := hi - 1; i >= 0; i--` of `heapSort`, with `i + 1` given. -/
def sort.heapSort.pop (env : Env) (first : Nat) : Nat → Docs → Option Docs
  | 0, data => some data
  | i + 1, data => do
    let data ← data.Swap first (first + i)
    let data ← sort.siftDown env data 0 i first
    sort.heapSort.pop env first i data

/-- Go `func heapSort(data Interface, a, b int)`. -/
def sort.heapSort (env : Env) (data : Docs) (a b : Nat) : Option Docs := do
  let first := a
  let hi := b - a
  let data ← sort.heapSort.build env hi first ((hi - 1) / 2) data
  sort.heapSort.pop env first hi data

/-- The loop `for i <= j && data.Less(i, a) { i++ }` of `partition`, with `j + 1 - i`
rounds at most. -/
def sort.partition.up (env : Env) (data : Docs) (a j : Nat) : Nat → Nat → Option Nat
  | 0, i => some i
  | n + 1, i =>
    if i ≤ j then
      match data.Less env i a with
      | none => none
      | some true => sort.partition.up env data a j n (i + 1)
      | some false => some i
    else some i

/-- The loop `for i <= j && !data.Less(j, a) { j-- }` of `partition`, with `j + 1 - i`
rounds at most. -/
def sort.partition.down (env : Env) (data : Docs) (a i : Nat) : Nat → Nat → Option Nat
  | 0, j => some j
  | n + 1, j =>
    if i ≤ j then
      match data.Less env j a with
      | none => none
      | some false => sort.partition.down env data a i n (j - 1)
      | some true => some j
    else some j

/-- The `for` loop without condition of `partition`; every round but the last swaps and
narrows `i .. j`, so `j + 1 - i` rounds end with `i > j`. -/
def sort.partition.loop (env : Env) (a : Nat) : Nat → Nat → Nat → Docs → Option (Nat × Docs)
  | 0, _, j, data => some (j, data)
  | n + 1, i, j, data => do
    let i ← sort.partition.up env data a j (j + 1 - i) i
    let j ← sort.partition.down env data a i (j + 1 - i) j
    if i > j then some (j, data)
    else
      let data ← data.Swap i j
      sort.partition.loop env a n (i + 1) (j - 1) data

/-- Go `func partition(data Interface, a, b, pivot int) (newpivot int,
alreadyPartitioned bool)`, with the collection after it. -/
def sort.partition (env : Env) (data : Docs) (a b pivot : Nat) :
    Option (Nat × Bool × Docs) := do
  let data ← data.Swap a pivot
  let i := a + 1
  let j := b - 1
  let i ← sort.partition.up env data a j (j + 1 - i) i
  let j ← sort.partition.down env data a i (j + 1 - i) j
  if i > j then
    let data ← data.Swap j a
    some (j, true, data)
  else
    let data ← data.Swap i j
    let (j, data) ← sort.partition.loop env a (j - 1 + 1 - (i + 1)) (i + 1) (j - 1) data
    let data ← data.Swap j a
    some (j, false, data)

/-- The loop `for i <= j && !data.Less(a, i) { i++ }` of `partitionEqual`. -/
def sort.partitionEqual.up (env : Env) (data : Docs) (a j : Nat) : Nat → Nat → Option Nat
  | 0, i => some i
  | n + 1, i =>
    if i ≤ j then
      match data.Less env a i with
      | none => none
      | some false => sort.partitionEqual.up env data a j n (i + 1)
      | some true => some i
    else some i

/-- The loop `for i <= j && data.Less(a, j) { j-- }` of `partitionEqual`. -/
def sort.partitionEqual.down (env : Env) (data : Docs) (a i : Nat) : Nat → Nat → Option Nat
  | 0, j => some j
  | n + 1, j =>
    if i ≤ j then
      match data.Less env a j with
      | none => none
      | some true => sort.partitionEqual.down env data a i n (j - 1)
      | some false => some j
    else some j

/-- The `for` loop without condition of `partitionEqual`. -/
def sort.partitionEqual.loop (env : Env) (a : Nat) :
    Nat → Nat → Nat → Docs → Option (Nat × Docs)
  | 0, i, _, data => some (i, data)
  | n + 1, i, j, data => do
    let i ← sort.partitionEqual.up env data a j (j + 1 - i) i
    let j ← sort.partitionEqual.down env data a i (j + 1 - i) j
    if i > j then some (i, data)
    else
      let data ← data.Swap i j
      sort.partitionEqual.loop env a n (i + 1) (j - 1) data

/-- Go `func partitionEqual(data Interface, a, b, pivot int) (newpivot int)`, with the
collection after it. -/
def sort.partitionEqual (env : Env) (data : Docs) (a b pivot : Nat) : Option (Nat × Docs) := do
  let data ← data.Swap a pivot
  sort.partitionEqual.loop env a (b - 1 + 1 - (a + 1) + 1) (a + 1) (b - 1) data

/-- The loop `for i < b && !data.Less(i, i-1) { i++ }` of `partialInsertionSort`, with
`b - i` rounds at most. -/
def sort.partialInsertionSort.skip (env : Env) (data : Docs) (b : Nat) : Nat → Nat → Option Nat
  | 0, i => some i
  | n + 1, i =>
    if i < b then
      match data.Less env i (i - 1) with
      | none => none
      | some false => sort.partialInsertionSort.skip env data b n (i + 1)
      | some true => some i
    else some i

/-- The loop `for j := i - 1; j >= 1; j--` of `partialInsertionSort`, at `j`. -/
def sort.partialInsertionSort.shiftLeft (env : Env) : Nat → Docs → Option Docs
  | 0, data => some data
  | j + 1, data =>
    match data.Less env (j + 1) j with
    | none => none
    | some false => some data
    | some true =>
      match data.Swap (j + 1) j with
      | none => none
      | some data1 => sort.partialInsertionSort.shiftLeft env j data1

/-- The loop `for j := i + 1; j < b; j++` of `partialInsertionSort`, at `j` with `b - j`
rounds left. -/
def sort.partialInsertionSort.shiftRight (env : Env) : Nat → Nat → Docs → Option Docs
  | 0, _, data => some data
  | n + 1, j, data =>
    match data.Less env j (j - 1) with
    | none => none
    | some false => some data
    | some true =>
      match data.Swap j (j - 1) with
      | none => none
      | some data1 => sort.partialInsertionSort.shiftRight env n (j + 1) data1

/-- The loop `for j := 0; j < maxSteps; j++` of `partialInsertionSort` with the given
number of rounds left, at `i`. -/
def sort.partialInsertionSort.loop (env : Env) (a b : Nat) :
    Nat → Nat → Docs → Option (Bool × Docs)
  | 0, _, data => some (false, data)
  | steps + 1, i, data => do
    let i ← sort.partialInsertionSort.skip env data b (b - i) i
    if i = b then some (true, data)
    else if b - a < 50 then some (false, data)
    else
      let data ← data.Swap i (i - 1)
      let data ← if i - a ≥ 2 then sort.partialInsertionSort.shiftLeft env (i - 1) data
        else some data
      let data ← if b - i ≥ 2 then
          sort.partialInsertionSort.shiftRight env (b - (i + 1)) (i + 1) data
        else some data
      sort.partialInsertionSort.loop env a b steps i data

/-- Go `func partialInsertionSort(data Interface, a, b int) bool` (`maxSteps = 5`,
`shortestShifting = 50`), with the collection after it. -/
def sort.partialInsertionSort (env : Env) (data : Docs) (a b : Nat) : Option (Bool × Docs) :=
  sort.partialInsertionSort.loop env a b 5 (a + 1) data

/-- Go `func nextPowerOfTwo(length int) uint`. -/
def sort.nextPowerOfTwo (length : Nat) : Nat :=
  2 ^ bits.Len length

/-- The loop `for i := 0; i < 3; i++` of `breakPatterns` with the given number of rounds
left, at `i` with generator state `random`; `uint(r) & (modulus - 1)` is the
remainder by the power of two `modulus`. -/
def sort.breakPatterns.loop (env : Env) (a length modulus idx : Nat) :
    Nat → Nat → Nat → Docs → Option Docs
  | 0, _, _, data => some data
  | n + 1, i, random, data => do
    let random := env.xorshiftNext random
    let other := random % modulus
    let other := if other ≥ length then other - length else other
    let data ← data.Swap (idx - 1 + i) (a + other)
    sort.breakPatterns.loop env a length modulus idx n (i + 1) random data

/-- Go `func breakPatterns(data Interface, a, b int)`. -/
def sort.breakPatterns (env : Env) (data : Docs) (a b : Nat) : Option Docs :=
  let length := b - a
  if length ≥ 8 then
    sort.breakPatterns.loop env a length (sort.nextPowerOfTwo length)
      (a + (length / 4) * 2 - 1) 3 0 length data
  else some data

/-- Go `func order2(data Interface, a, b int, swaps *int) (int, int)`, with the new
value of `*swaps`. -/
def sort.order2 (env : Env) (data : Docs) (a b swaps : Nat) : Option (Nat × Nat × Nat) :=
  match data.Less env b a with
  | none => none
  | some true => some (b, a, swaps + 1)
  | some false => some (a, b, swaps)

/-- Go `func median(data Interface, a, b, c int, swaps *int) int`, with the new value of
`*swaps`. -/
def sort.median (env : Env) (data : Docs) (a b c swaps : Nat) : Option (Nat × Nat) := do
  let (a, b, swaps) ← sort.order2 env data a b swaps
  let (b, _, swaps) ← sort.order2 env data b c swaps
  let (_, b, swaps) ← sort.order2 env data a b swaps
  some (b, swaps)

/-- Go `func medianAdjacent(data Interface, a int, swaps *int) int`. -/
def sort.medianAdjacent (env : Env) (data : Docs) (a swaps : Nat) : Option (Nat × Nat) :=
  sort.median env data (a - 1) a (a + 1) swaps

/-- Go `func choosePivot(data Interface, a, b int) (pivot int, hint sortedHint)`
(`shortestNinther = 50`, `maxSwaps = 4 * 3`). -/
def sort.choosePivot (env : Env) (data : Docs) (a b : Nat) :
    Option (Nat × sort.sortedHint) := do
  let l := b - a
  let swaps := 0
  let i := a + l / 4 * 1
  let j := a + l / 4 * 2
  let k := a + l / 4 * 3
  let (j, swaps) ←
    if l ≥ 8 then do
      let (i, j, k, swaps) ←
        if l ≥ 50 then do
          let (i, swaps) ← sort.medianAdjacent env data i swaps
          let (j, swaps) ← sort.medianAdjacent env data j swaps
          let (k, swaps) ← sort.medianAdjacent env data k swaps
          some (i, j, k, swaps)
        else some (i, j, k, swaps)
      sort.median env data i j k swaps
    else some (j, swaps)
  if swaps = 0 then some (j, sort.sortedHint.increasingHint)
  else if swaps = 4 * 3 then some (j, sort.sortedHint.decreasingHint)
  else some (j, sort.sortedHint.unknownHint)

/-- The loop `for i < j` of `reverseRange`, which makes `(b - a) / 2` rounds. -/
def sort.reverseRange.loop : Nat → Nat → Nat → Docs → Option Docs
  | 0, _, _, data => some data
  | n + 1, i, j, data => do
    let data ← data.Swap i j
    sort.reverseRange.loop n (i + 1) (j - 1) data

/-- Go `func reverseRange(data Interface, a, b int)`. -/
def sort.reverseRange (data : Docs) (a b : Nat) : Option Docs :=
  sort.reverseRange.loop ((b - a) / 2) a (b - 1) data

/-- The `for` loop of `pdqsort` on `data[a:b]` with the local variables `limit`,
`wasBalanced` and `wasPartitioned` (`maxInsertion = 12`); the call of `pdqsort` in
the loop starts a loop of its own.  Each round and each call takes one unit of
fuel. -/
def sort.pdqsort.loop (env : Env) :
    Nat → Docs → Nat → Nat → Nat → Bool → Bool → Option Docs
  | 0, _, _, _, _, _, _ => none
  | fuel + 1, data, a, b, limit, wasBalanced, wasPartitioned =>
    let length := b - a
    if length ≤ 12 then sort.insertionSort env data a b
    else if limit = 0 then sort.heapSort env data a b
    else do
      let (data, limit) ←
        if !wasBalanced then do
          let data ← sort.breakPatterns env data a b
          some (data, limit - 1)
        else some (data, limit)
      let (pivot, hint) ← sort.choosePivot env data a b
      let (data, pivot, hint) ←
        if hint = sort.sortedHint.decreasingHint then do
          let data ← sort.reverseRange data a b
          some (data, (b - 1) - (pivot - a), sort.sortedHint.increasingHint)
        else some (data, pivot, hint)
      let (done, data) ←
        if wasBalanced && wasPartitioned && hint = sort.sortedHint.increasingHint then
          sort.partialInsertionSort env data a b
        else some (false, data)
      if done then some data
      else
        let equal ← if a > 0 then (data.Less env (a - 1) pivot).map (fun r => !r)
          else some false
        if equal then
          let (mid, data) ← sort.partitionEqual env data a b pivot
          sort.pdqsort.loop env fuel data mid b limit wasBalanced wasPartitioned
        else
          let (mid, alreadyPartitioned, data) ← sort.partition env data a b pivot
          let wasPartitioned := alreadyPartitioned
          let leftLen := mid - a
          let rightLen := b - mid
          let balanceThreshold := length / 8
          if leftLen < rightLen then
            let wasBalanced := decide (leftLen ≥ balanceThreshold)
            let data ← sort.pdqsort.loop env fuel data a mid limit true true
            sort.pdqsort.loop env fuel data (mid + 1) b limit wasBalanced wasPartitioned
          else
            let wasBalanced := decide (rightLen ≥ balanceThreshold)
            let data ← sort.pdqsort.loop env fuel data (mid + 1) b limit true true
            sort.pdqsort.loop env fuel data a mid limit wasBalanced wasPartitioned

/-- Go `func pdqsort(data Interface, a, b, limit int)`. -/
def sort.pdqsort (env : Env) (fuel : Nat) (data : Docs) (a b limit : Nat) : Option Docs :=
  sort.pdqsort.loop env fuel data a b limit true true

/-- Go `func Sort(data Interface)` on a `Docs`: the collection after the call. -/
def sort.Sort (env : Env) (data : Docs) : Option Docs :=
  let n := data.Len
  if n ≤ 1 then some data
  else
    let limit := bits.Len n
    sort.pdqsort env (n + 1) data 0 n limit

/-! ## `internal/cmd/sort.go` -/

/-- Go `sortYAMLDocuments` from the decoded `documents` to the list handed to
`printYAMLDocuments`. -/
def sortYAMLDocuments (env : Env) (documents : List Doc) (orderFlag : String) :
    Option (List Doc) :=
  let yamlDocs : Docs := { Docs := documents, Order := [] }
  if orderFlag ≠ "" then
    let order := Split orderFlag ','
    match sort.Sort env { yamlDocs with Order := order } with
    | none => none
    | some sorted => some sorted.Docs
  else some yamlDocs.Docs

/-! ## Notions used to state the properties -/

/-- The value a list of segments addresses in a document: every non-final segment
names a key whose value is a nested mapping, the final segment names a key, whose
value is the result; `none` when a key is absent, a non-final value is not a nested
mapping, or there is no segment. -/
def addressed : Doc → List String → Option Value
  | _, [] => none
  | Doc.nil, _ :: _ => none
  | Doc.map entries, [k] => entries.lookup k
  | Doc.map entries, k :: k2 :: rest =>
    match entries.lookup k with
    | some (Value.doc next) => addressed next (k2 :: rest)
    | _ => none

/-- The scalar leaves that `GetValueByPath` renders: a string, a Go `int`, a `float64`
and a boolean. -/
def Value.isScalar : Value → Bool
  | Value.str _ => true
  | Value.int _ => true
  | Value.float _ => true
  | Value.bool _ => true
  | _ => false

/-- The comparison that `Less` makes, as a relation between two documents instead of
two indices of a collection. -/
def lessDocs (env : Env) (a b : Doc) : List String → Bool
  | [] => false
  | path :: rest =>
    if a.GetValueByPath env path ≠ b.GetValueByPath env path then
      stringLess (a.GetValueByPath env path) (b.GetValueByPath env path)
    else lessDocs env a b rest

/-- The strings that the paths of a list resolve to in a document, in list order. -/
def resolved (env : Env) (doc : Doc) (paths : List String) : List String :=
  paths.map (doc.GetValueByPath env)

/-- The file name described for a document and a path list: the non-empty resolved
values in path order, every `/` replaced with `_`, joined with `_`, followed by
`.yaml`. -/
def fileNameOf (env : Env) (doc : Doc) (paths : List String) : String :=
  Join (((resolved env doc paths).filter (fun v => v ≠ "")).map
    (fun v => ReplaceAll v '/' '_')) "_" ++ ".yaml"

/-- An environment for evaluating examples: floats print as `0`, `filepath.Join`
puts a `/` between directory and name, `os.Stat` fails only with not-exist, creating
and encoding always succeed, the pseudo-random generator stands still. -/
def exampleEnv : Env :=
  { fmtG := fun _ => "0", filepathJoin := fun d f => d ++ "/" ++ f,
    statFails := fun _ => false, createOk := fun _ => true, encodeOk := fun _ => true,
    xorshiftNext := fun r => r }

/-- The document `{a: 1, b: "x", m: {n: true, k: -12, l: [1]}}`. -/
def exampleDoc : Doc :=
  Doc.map [("a", Value.int 1), ("b", Value.str "x"),
    ("m", Value.doc (Doc.map [("n", Value.bool true), ("k", Value.int (-12)),
      ("l", Value.seq [Value.int 1])]))]

/-- The display form of the value a path addresses: a string verbatim, an integer in
decimal, a float as `%g` prints it, a boolean as `true` or `false`, and the empty
string when nothing or no scalar is addressed. -/
def displayOf (env : Env) : Option Value → String
  | some (Value.str s) => s
  | some (Value.int i) => Sprintf_d i
  | some (Value.float f) => env.fmtG f
  | some (Value.bool b) => if b then "true" else "false"
  | _ => ""

/-- The collection `{a: 1, b: "x"}`, `{a: 1, b: "y"}` with order list `a`, `b`. -/
def exampleDocs : Docs :=
  { Docs := [Doc.map [("a", Value.int 1), ("b", Value.str "x")],
             Doc.map [("a", Value.int 1), ("b", Value.str "y")]],
    Order := ["a", "b"] }

/-- The document `{apiVersion: v1, kind: Pod}`. -/
def examplePod : Doc :=
  Doc.map [("apiVersion", Value.str "v1"), ("kind", Value.str "Pod")]

/-- The `diff` command with `-paths` set to the given list. -/
def diffWithPaths (paths : String) : DiffCommand :=
  { NewDiffCommand with paths := paths }

/-- The document `{a: {b: 1}}`, which has no `x.y`. -/
def exampleLacking : Doc :=
  Doc.map [("a", Value.doc (Doc.map [("b", Value.int 1)]))]

/-- The document `{k: "a/b"}`. -/
def slashDoc : Doc := Doc.map [("k", Value.str "a/b")]

/-- The document `{k: "a_b"}`. -/
def underscoreDoc : Doc := Doc.map [("k", Value.str "a_b")]

/-- The document `{p: "x_y", q: "z"}`. -/
def leftHeavyDoc : Doc := Doc.map [("p", Value.str "x_y"), ("q", Value.str "z")]

/-- The document `{p: "x", q: "y_z"}`. -/
def rightHeavyDoc : Doc := Doc.map [("p", Value.str "x"), ("q", Value.str "y_z")]

/-- The document `{p: "x"}`. -/
def onlyFirstDoc : Doc := Doc.map [("p", Value.str "x")]

/-- The document `{q: "x"}`. -/
def onlySecondDoc : Doc := Doc.map [("q", Value.str "x")]

/-- The empty target directory in which `writeYamlDocs` starts. -/
def emptyWorld : World := { files := [], written := [] }

/-- The document `{x: "a", y: "b"}`. -/
def exampleAB : Doc := Doc.map [("x", Value.str "a"), ("y", Value.str "b")]

/-- The document `{x: "a", y: "b", z: 1}`. -/
def exampleABZ : Doc :=
  Doc.map [("x", Value.str "a"), ("y", Value.str "b"), ("z", Value.int 1)]

/-- The document `{x: "c", y: "d"}`. -/
def exampleCD : Doc := Doc.map [("x", Value.str "c"), ("y", Value.str "d")]

/-- Two documents compare equal under an order list: neither is less than the other. -/
def equalUnder (env : Env) (order : List String) (a b : Doc) : Bool :=
  !lessDocs env a b order && !lessDocs env b a order

/-- Stability of a rearrangement: for every document, the documents comparing equal to
it come in the same order in the output as in the input. -/
def Stable (env : Env) (order : List String) (input output : List Doc) : Prop :=
  ∀ d : Doc, output.filter (equalUnder env order d) = input.filter (equalUnder env order d)

/-- The collection `{a: 1, b: "x"}`, `{a: 1, b: "y"}`, `{a: 2, b: "a"}`,
`{a: 2, b: "a", c: true}` with order list `a`, `b`. -/
def exampleChain : Docs :=
  { Docs := [Doc.map [("a", Value.int 1), ("b", Value.str "x")],
             Doc.map [("a", Value.int 1), ("b", Value.str "y")],
             Doc.map [("a", Value.int 2), ("b", Value.str "a")],
             Doc.map [("a", Value.int 2), ("b", Value.str "a"), ("c", Value.bool true)]],
    Order := ["a", "b"] }

/-- The string of 300 times `n`. -/
def longName : String := String.mk (List.replicate 300 'n')

/-- The document `{k: "n...n"}` with 300 times `n`. -/
def longNameDoc : Doc := Doc.map [("k", Value.str longName)]

/-- The example environment on a file system with the usual limit on names: `os.Stat`
fails (name too long) for a path whose last element has more than 255 characters. -/
def longNameEnv : Env :=
  { exampleEnv with
    statFails := fun p => decide (255 < ((splitChars '/' p.data).getLast?.getD []).length) }

/-- The value stored under a string key in a nested mapping of either Go type, a `Doc`
or a `map[any]any`. -/
def Value.lookupKey : Value → String → Option Value
  | Value.doc (Doc.map entries), k => entries.lookup k
  | Value.mapAny entries, k =>
    (entries.find? fun e =>
      match e.1 with
      | Value.str s => s == k
      | _ => false).map Prod.snd
  | _, _ => none

/-- Nested mappings, whatever the type of their keys. -/
def Value.isMapping : Value → Bool
  | Value.doc _ => true
  | Value.mapAny _ => true
  | _ => false

/-- The value a list of segments leads to when a nested mapping of either Go type
counts as a mapping: every non-final segment names a key whose value is a nested
mapping, the final segment names a key, whose value is the result. -/
def leafAt : Value → List String → Option Value
  | _, [] => none
  | cur, [k] => cur.lookupKey k
  | cur, k :: k2 :: rest =>
    match cur.lookupKey k with
    | some next => if next.isMapping then leafAt next (k2 :: rest) else none
    | none => none

/-- The display form of a string, integer or boolean leaf when an integer of either
Go type counts as an integer: the string itself, the decimal digits, `true` or
`false`. -/
def leafDisplay : Value → Option String
  | Value.str s => some s
  | Value.int i => some (toString i)
  | Value.uint n => some (toString n)
  | Value.bool b => some (if b then "true" else "false")
  | _ => none

/-- The document `{u: 18446744073709551615}`, whose integer is above the range of `int`
and is held as a `uint64`. -/
def bigIntDoc : Doc := Doc.map [("u", Value.uint 18446744073709551615)]

/-- The document `{a: {1: "x", b: "y"}}`, whose nested mapping has a key that is not a
string and is held as a `map[any]any`. -/
def mixedKeyDoc : Doc :=
  Doc.map [("a", Value.mapAny [(Value.int 1, Value.str "x"), (Value.str "b", Value.str "y")])]

/-- Insertion of a document into a list kept in reverse (last document first): the
document moves past the documents it is less than and stops at the first one it is
not less than, which is what the inner loop of `insertionSort` does with swaps. -/
def insertBack (env : Env) (order : List String) (x : Doc) : List Doc → List Doc
  | [] => [x]
  | y :: ys =>
    if lessDocs env x y order then y :: insertBack env order x ys else x :: y :: ys

/-- The document `{a: key, b: label}`. -/
def keyed (key label : String) : Doc :=
  Doc.map [("a", Value.str key), ("b", Value.str label)]

/-- Thirteen documents: twelve with `a: "1"`, labelled `d00` to `d11` under `b`, then one
with `a: "0"`, labelled `d12`. -/
def thirteenDocs : List Doc :=
  [keyed "1" "d00", keyed "1" "d01", keyed "1" "d02", keyed "1" "d03", keyed "1" "d04",
   keyed "1" "d05", keyed "1" "d06", keyed "1" "d07", keyed "1" "d08", keyed "1" "d09",
   keyed "1" "d10", keyed "1" "d11", keyed "0" "d12"]

/-- The documents of `thirteenDocs` as `sort.Sort` leaves them for the order list `a`. -/
def thirteenSorted : List Doc :=
  [keyed "0" "d12", keyed "1" "d06", keyed "1" "d02", keyed "1" "d03", keyed "1" "d04",
   keyed "1" "d05", keyed "1" "d00", keyed "1" "d07", keyed "1" "d08", keyed "1" "d09",
   keyed "1" "d10", keyed "1" "d11", keyed "1" "d01"]

/-! ## Strings -/

theorem ltChars_irrefl (a : List Char) : ltChars a a = false := by
  induction a with
  | nil => rfl
  | cons c cs ih => simp [ltChars, ih]

theorem char_eq_of_toNat_eq {a b : Char} (h : a.toNat = b.toNat) : a = b := by
  rw [← Char.ofNat_toNat a, ← Char.ofNat_toNat b, h]

theorem ltChars_asymm : ∀ a b : List Char, ltChars a b = true → ltChars b a = false
  | _, [], h => by simp [ltChars] at h
  | [], _ :: _, _ => by simp [ltChars]
  | a :: as, b :: bs, h => by
    simp only [ltChars] at h ⊢
    by_cases h1 : a.toNat < b.toNat
    · have h2 : ¬ b.toNat < a.toNat := by omega
      simp [h2, h1]
    · by_cases h2 : b.toNat < a.toNat
      · simp [h1, h2] at h
      · simp only [h1, h2, if_false] at h ⊢
        exact ltChars_asymm as bs h

theorem ltChars_trans : ∀ a b c : List Char,
    ltChars a b = true → ltChars b c = true → ltChars a c = true
  | _, [], _, h, _ => by simp [ltChars] at h
  | _, _ :: _, [], _, h => by simp [ltChars] at h
  | [], _ :: _, _ :: _, _, _ => by simp [ltChars]
  | a :: as, b :: bs, c :: cs, hab, hbc => by
    simp only [ltChars] at hab hbc ⊢
    by_cases h1 : a.toNat < b.toNat
    · by_cases h2 : b.toNat < c.toNat
      · have : a.toNat < c.toNat := by omega
        simp [this]
      · by_cases h3 : c.toNat < b.toNat
        · simp [h2, h3] at hbc
        · have : a.toNat < c.toNat := by omega
          simp [this]
    · by_cases h1b : b.toNat < a.toNat
      · simp [h1, h1b] at hab
      · simp only [h1, h1b, if_false] at hab
        by_cases h2 : b.toNat < c.toNat
        · have : a.toNat < c.toNat := by omega
          simp [this]
        · by_cases h3 : c.toNat < b.toNat
          · simp [h2, h3] at hbc
          · simp only [h2, h3, if_false] at hbc
            have e1 : ¬ a.toNat < c.toNat := by omega
            have e2 : ¬ c.toNat < a.toNat := by omega
            simp only [e1, e2, if_false]
            exact ltChars_trans as bs cs hab hbc

theorem ltChars_connected : ∀ a b : List Char,
    ltChars a b = false → ltChars b a = false → a = b
  | [], [], _, _ => rfl
  | [], _ :: _, h, _ => by simp [ltChars] at h
  | _ :: _, [], _, h => by simp [ltChars] at h
  | a :: as, b :: bs, hab, hba => by
    simp only [ltChars] at hab hba
    by_cases h1 : a.toNat < b.toNat
    · simp [h1] at hab
    · by_cases h2 : b.toNat < a.toNat
      · simp [h2] at hba
      · simp only [h1, h2, if_false] at hab hba
        have hc : a = b := char_eq_of_toNat_eq (by omega)
        rw [hc, ltChars_connected as bs hab hba]

theorem string_eq_of_data_eq {a b : String} (h : a.data = b.data) : a = b := by
  cases a; cases b; simp_all

theorem stringLess_irrefl (a : String) : stringLess a a = false :=
  ltChars_irrefl a.data

theorem stringLess_asymm {a b : String} (h : stringLess a b = true) :
    stringLess b a = false :=
  ltChars_asymm _ _ h

theorem stringLess_trans {a b c : String} (hab : stringLess a b = true)
    (hbc : stringLess b c = true) : stringLess a c = true :=
  ltChars_trans _ _ _ hab hbc

theorem stringLess_connected {a b : String} (hab : stringLess a b = false)
    (hba : stringLess b a = false) : a = b :=
  string_eq_of_data_eq (ltChars_connected _ _ hab hba)

theorem stringLess_empty_left {s : String} (h : s ≠ "") : stringLess "" s = true := by
  cases s with
  | mk l =>
    cases l with
    | nil => exact absurd rfl h
    | cons c cs => rfl

/-! ## Path resolution -/

theorem GetValueByPath_loop_eq (env : Env) : ∀ (parts : List String) (D : Doc),
    Doc.GetValueByPath.loop env D parts = displayOf env (addressed D parts)
  | [], D => by cases D <;> rfl
  | _ :: _, Doc.nil => rfl
  | [k], Doc.map entries => by
    simp only [Doc.GetValueByPath.loop, addressed, Doc.index, List.isEmpty_nil, if_true]
    cases h : entries.lookup k with
    | none => rfl
    | some v => cases v <;> simp [displayOf, Sprintf_v]
  | k :: k2 :: rest, Doc.map entries => by
    have ih := GetValueByPath_loop_eq env (k2 :: rest)
    rw [Doc.GetValueByPath.loop, addressed]
    simp only [Doc.index, List.isEmpty_cons, Bool.false_eq_true, if_false]
    cases h : entries.lookup k with
    | none => rfl
    | some v =>
      cases v with
      | doc d => exact ih d
      | _ => rfl

theorem GetValueByPath_eq_displayOf (env : Env) (D : Doc) (P : String) :
    D.GetValueByPath env P = displayOf env (addressed D (Split (TrimPrefix P ".") '.')) :=
  GetValueByPath_loop_eq env _ D

theorem TrimPrefix_dot_append (P : String) : TrimPrefix ("." ++ P) "." = P := by
  cases P with
  | mk l => simp [TrimPrefix, HasPrefix, String.append, List.isPrefixOf]

theorem TrimPrefix_of_not_HasPrefix (P pre : String) (h : HasPrefix P pre = false) :
    TrimPrefix P pre = P := by
  simp [TrimPrefix, h]

theorem Sprintf_d_eq_toString (i : Int) : Sprintf_d i = toString i := by
  cases i <;> rfl

/-- C1 as stated fails at two documents.  In `{u: 18446744073709551615}` the segment
`u` names an integer leaf, held as a `uint64`, and in `{a: {1: "x", b: "y"}}` the
segments `a`, `b` lead through a nested mapping, held as a `map[any]any`, to the
string leaf `y`; `GetValueByPath` returns the empty string for both instead of the
display form of the leaf. -/
theorem GetValueByPath_misses_scalar_leaf :
    (leafAt (Value.doc bigIntDoc) (Split (TrimPrefix "u" ".") '.') =
        some (Value.uint 18446744073709551615) ∧
      leafDisplay (Value.uint 18446744073709551615) = some "18446744073709551615" ∧
      bigIntDoc.GetValueByPath exampleEnv "u" = "") ∧
    (leafAt (Value.doc mixedKeyDoc) (Split (TrimPrefix "a.b" ".") '.') =
        some (Value.str "y") ∧
      leafDisplay (Value.str "y") = some "y" ∧
      mixedKeyDoc.GetValueByPath exampleEnv "a.b" = "") :=
  ⟨⟨rfl, by decide, by decide⟩, ⟨rfl, by decide, by decide⟩⟩

/-- C1 amended: when the segments of `P` (one leading `.` removed, split on `.`) address
a leaf of `D` through nested mappings of type `Doc` (mappings with string keys), and
the leaf is a string, an integer held as a Go `int`, or a boolean, `GetValueByPath`
returns the display form of that leaf: a string verbatim, an integer in decimal, a
boolean as `true` or `false`; and a path not starting with `.` resolves like the same
path with a `.` put in front. -/
theorem GetValueByPath_scalar_leaf (env : Env) (D : Doc) (P : String) :
    (∀ s : String, addressed D (Split (TrimPrefix P ".") '.') = some (Value.str s) →
      D.GetValueByPath env P = s) ∧
    (∀ i : Int, addressed D (Split (TrimPrefix P ".") '.') = some (Value.int i) →
      D.GetValueByPath env P = toString i) ∧
    (∀ b : Bool, addressed D (Split (TrimPrefix P ".") '.') = some (Value.bool b) →
      D.GetValueByPath env P = if b then "true" else "false") ∧
    (HasPrefix P "." = false →
      D.GetValueByPath env ("." ++ P) = D.GetValueByPath env P) := by
  refine ⟨?_, ?_, ?_, ?_⟩
  · intro s h
    rw [GetValueByPath_eq_displayOf, h]; rfl
  · intro i h
    rw [GetValueByPath_eq_displayOf, h, ← Sprintf_d_eq_toString]; rfl
  · intro b h
    rw [GetValueByPath_eq_displayOf, h]; rfl
  · intro h
    simp only [Doc.GetValueByPath, TrimPrefix_dot_append, TrimPrefix_of_not_HasPrefix P "." h]

/-- C1 amended, at `{a: 1, b: "x", m: {n: true, k: -12, l: [1]}}`: `b` gives `x`, `.m.k` gives
`-12`, `m.n` gives `true`, and `.a` resolves like `a`. -/
theorem GetValueByPath_scalar_leaf_witness :
    (addressed exampleDoc (Split (TrimPrefix "b" ".") '.') = some (Value.str "x") ∧
      exampleDoc.GetValueByPath exampleEnv "b" = "x") ∧
    (addressed exampleDoc (Split (TrimPrefix ".m.k" ".") '.') = some (Value.int (-12)) ∧
      exampleDoc.GetValueByPath exampleEnv ".m.k" = "-12") ∧
    (addressed exampleDoc (Split (TrimPrefix "m.n" ".") '.') = some (Value.bool true) ∧
      exampleDoc.GetValueByPath exampleEnv "m.n" = "true") ∧
    (HasPrefix "a" "." = false ∧
      exampleDoc.GetValueByPath exampleEnv ".a" = exampleDoc.GetValueByPath exampleEnv "a") :=
  ⟨⟨rfl, (GetValueByPath_scalar_leaf exampleEnv exampleDoc "b").1 "x" rfl⟩,
   ⟨rfl, (GetValueByPath_scalar_leaf exampleEnv exampleDoc ".m.k").2.1 (-12) rfl⟩,
   ⟨rfl, (GetValueByPath_scalar_leaf exampleEnv exampleDoc "m.n").2.2.1 true rfl⟩,
   ⟨rfl, (GetValueByPath_scalar_leaf exampleEnv exampleDoc "a").2.2.2 rfl⟩⟩

/-- C2: `GetValueByPath` returns the empty string whenever the segments of the path do
not address a scalar leaf: a key on the way is absent or its value is not a nested
mapping, or the final key is absent or names a mapping, a sequence or any other
non-scalar value. -/
theorem GetValueByPath_empty_of_no_scalar (env : Env) (D : Doc) (P : String)
    (h : addressed D (Split (TrimPrefix P ".") '.') = none ∨
      ∃ v, addressed D (Split (TrimPrefix P ".") '.') = some v ∧ v.isScalar = false) :
    D.GetValueByPath env P = "" := by
  rw [GetValueByPath_eq_displayOf]
  rcases h with h | ⟨v, h, hv⟩
  · rw [h]; rfl
  · rw [h]
    cases v <;> first | rfl | simp [Value.isScalar] at hv

/-- C2 at `{a: 1, b: "x", m: {n: true, k: -12, l: [1]}}`: the absent key `z`, the path
`a.x` through a scalar, the mapping `m` and the sequence `m.l` all give the empty
string. -/
theorem GetValueByPath_empty_of_no_scalar_witness :
    exampleDoc.GetValueByPath exampleEnv "z" = "" ∧
    exampleDoc.GetValueByPath exampleEnv "a.x" = "" ∧
    exampleDoc.GetValueByPath exampleEnv "m" = "" ∧
    exampleDoc.GetValueByPath exampleEnv "m.l" = "" :=
  ⟨GetValueByPath_empty_of_no_scalar exampleEnv exampleDoc "z" (Or.inl rfl),
   GetValueByPath_empty_of_no_scalar exampleEnv exampleDoc "a.x" (Or.inl rfl),
   GetValueByPath_empty_of_no_scalar exampleEnv exampleDoc "m" (Or.inr ⟨_, rfl, rfl⟩),
   GetValueByPath_empty_of_no_scalar exampleEnv exampleDoc "m.l" (Or.inr ⟨_, rfl, rfl⟩)⟩

/-! ## The comparison of two documents -/

theorem lessDocs_irrefl (env : Env) (a : Doc) (order : List String) :
    lessDocs env a a order = false := by
  induction order with
  | nil => rfl
  | cons p rest ih => simp [lessDocs, ih]

theorem lessDocs_asymm (env : Env) (a b : Doc) (order : List String)
    (h : lessDocs env a b order = true) : lessDocs env b a order = false := by
  induction order with
  | nil => rfl
  | cons p rest ih =>
    simp only [lessDocs] at h ⊢
    by_cases e : a.GetValueByPath env p = b.GetValueByPath env p
    · rw [if_neg (not_not.mpr e)] at h
      rw [if_neg (not_not.mpr e.symm)]
      exact ih h
    · rw [if_pos e] at h
      rw [if_pos (Ne.symm e)]
      exact stringLess_asymm h

theorem lessDocs_incomparable_iff (env : Env) (a b : Doc) (order : List String) :
    (lessDocs env a b order = false ∧ lessDocs env b a order = false) ↔
      ∀ p ∈ order, a.GetValueByPath env p = b.GetValueByPath env p := by
  induction order with
  | nil => simp [lessDocs]
  | cons p rest ih =>
    simp only [lessDocs, List.mem_cons, forall_eq_or_imp]
    by_cases e : a.GetValueByPath env p = b.GetValueByPath env p
    · rw [if_neg (not_not.mpr e), if_neg (not_not.mpr e.symm), ih]
      exact ⟨fun h => ⟨e, h⟩, fun h => h.2⟩
    · rw [if_pos e, if_pos (Ne.symm e)]
      constructor
      · rintro ⟨h1, h2⟩
        exact absurd (stringLess_connected h1 h2) e
      · rintro ⟨h1, _⟩
        exact absurd h1 e

theorem lessDocs_of_all_eq (env : Env) (a b : Doc) (order : List String)
    (h : ∀ p ∈ order, a.GetValueByPath env p = b.GetValueByPath env p) :
    lessDocs env a b order = false :=
  ((lessDocs_incomparable_iff env a b order).mpr h).1

theorem lessDocs_trans (env : Env) (a b c : Doc) (order : List String)
    (hab : lessDocs env a b order = true) (hbc : lessDocs env b c order = true) :
    lessDocs env a c order = true := by
  induction order with
  | nil => simp [lessDocs] at hab
  | cons p rest ih =>
    simp only [lessDocs] at hab hbc ⊢
    by_cases e1 : a.GetValueByPath env p = b.GetValueByPath env p
    · rw [if_neg (not_not.mpr e1)] at hab
      by_cases e2 : b.GetValueByPath env p = c.GetValueByPath env p
      · rw [if_neg (not_not.mpr e2)] at hbc
        rw [if_neg (not_not.mpr (e1.trans e2))]
        exact ih hab hbc
      · rw [if_pos e2] at hbc
        rw [e1, if_pos e2]
        exact hbc
    · rw [if_pos e1] at hab
      by_cases e2 : b.GetValueByPath env p = c.GetValueByPath env p
      · rw [← e2, if_pos e1]
        exact hab
      · rw [if_pos e2] at hbc
        have hac := stringLess_trans hab hbc
        have e3 : a.GetValueByPath env p ≠ c.GetValueByPath env p := by
          intro e
          rw [e, stringLess_irrefl] at hac
          exact Bool.false_ne_true hac
        rw [if_pos e3]
        exact hac

theorem lessDocs_iff_first_difference (env : Env) (a b : Doc) (order : List String) :
    lessDocs env a b order = true ↔
      ∃ pre p post, order = pre ++ p :: post ∧
        (∀ q ∈ pre, a.GetValueByPath env q = b.GetValueByPath env q) ∧
        a.GetValueByPath env p ≠ b.GetValueByPath env p ∧
        stringLess (a.GetValueByPath env p) (b.GetValueByPath env p) = true := by
  induction order with
  | nil => simp [lessDocs]
  | cons p rest ih =>
    simp only [lessDocs]
    by_cases e : a.GetValueByPath env p = b.GetValueByPath env p
    · rw [if_neg (not_not.mpr e), ih]
      constructor
      · rintro ⟨pre, q, post, rfl, h1, h2, h3⟩
        refine ⟨p :: pre, q, post, rfl, ?_, h2, h3⟩
        intro r hr
        rcases List.mem_cons.mp hr with rfl | hr
        · exact e
        · exact h1 r hr
      · rintro ⟨pre, q, post, ho, h1, h2, h3⟩
        cases pre with
        | nil =>
          simp only [List.nil_append, List.cons.injEq] at ho
          exact absurd (ho.1 ▸ e) h2
        | cons r pre =>
          simp only [List.cons_append, List.cons.injEq] at ho
          exact ⟨pre, q, post, ho.2, fun s hs => h1 s (List.mem_cons_of_mem _ hs), h2, h3⟩
    · rw [if_pos e]
      constructor
      · intro h
        exact ⟨[], p, rest, rfl, by simp, e, h⟩
      · rintro ⟨pre, q, post, ho, h1, h2, h3⟩
        cases pre with
        | nil =>
          simp only [List.nil_append, List.cons.injEq] at ho
          rw [ho.1]; exact h3
        | cons r pre =>
          simp only [List.cons_append, List.cons.injEq] at ho
          exact absurd (ho.1 ▸ h1 r (List.mem_cons_self _ _)) e

theorem Less_loop_eq_lessDocs (env : Env) (d : Docs) (i j : Nat) (di dj : Doc)
    (hi : d.Docs[i]? = some di) (hj : d.Docs[j]? = some dj) (order : List String) :
    Docs.Less.loop env d i j order = some (lessDocs env di dj order) := by
  induction order with
  | nil => rfl
  | cons p rest ih =>
    simp only [Docs.Less.loop, hi, hj, lessDocs, ih]
    split <;> rfl

theorem Less_eq_lessDocs (env : Env) (d : Docs) (i j : Nat)
    (hi : i < d.Docs.length) (hj : j < d.Docs.length) :
    d.Less env i j = some (lessDocs env d.Docs[i] d.Docs[j] d.Order) :=
  Less_loop_eq_lessDocs env d i j _ _ (List.getElem?_eq_getElem hi)
    (List.getElem?_eq_getElem hj) d.Order

/-- C3: for valid indices `i`, `j`, `Less(i, j)` returns, and it is true exactly when
some path `p` of `Order` has all paths before it resolving to equal strings in both
documents, different strings at `p`, and the string of document `i` at `p` smaller.
So it is false for an empty `Order` and when all paths resolve to equal strings, and
a document whose first differing path resolves to the empty string comes first. -/
theorem Less_iff_first_difference (env : Env) (d : Docs) (i j : Nat)
    (hi : i < d.Docs.length) (hj : j < d.Docs.length) :
    (d.Less env i j = some true ∨ d.Less env i j = some false) ∧
    (d.Less env i j = some true ↔
      ∃ pre p post, d.Order = pre ++ p :: post ∧
        (∀ q ∈ pre, d.Docs[i].GetValueByPath env q = d.Docs[j].GetValueByPath env q) ∧
        d.Docs[i].GetValueByPath env p ≠ d.Docs[j].GetValueByPath env p ∧
        stringLess (d.Docs[i].GetValueByPath env p) (d.Docs[j].GetValueByPath env p)
          = true) ∧
    (d.Order = [] → d.Less env i j = some false) ∧
    ((∀ q ∈ d.Order, d.Docs[i].GetValueByPath env q = d.Docs[j].GetValueByPath env q) →
      d.Less env i j = some false) ∧
    (∀ pre p post, d.Order = pre ++ p :: post →
      (∀ q ∈ pre, d.Docs[i].GetValueByPath env q = d.Docs[j].GetValueByPath env q) →
      d.Docs[i].GetValueByPath env p = "" → d.Docs[j].GetValueByPath env p ≠ "" →
      d.Less env i j = some true ∧ d.Less env j i = some false) := by
  have hij := Less_eq_lessDocs env d i j hi hj
  have hji := Less_eq_lessDocs env d j i hj hi
  refine ⟨?_, ?_, ?_, ?_, ?_⟩
  · rw [hij]
    cases lessDocs env d.Docs[i] d.Docs[j] d.Order
    · exact Or.inr rfl
    · exact Or.inl rfl
  · rw [hij, Option.some.injEq]
    exact lessDocs_iff_first_difference env _ _ _
  · intro ho
    rw [hij, ho]; rfl
  · intro h
    rw [hij, lessDocs_of_all_eq env _ _ _ h]
  · intro pre p post ho hpre hI hJ
    have hlt : lessDocs env d.Docs[i] d.Docs[j] d.Order = true := by
      rw [lessDocs_iff_first_difference]
      refine ⟨pre, p, post, ho, hpre, ?_, ?_⟩
      · rw [hI]; exact Ne.symm hJ
      · rw [hI]; exact stringLess_empty_left hJ
    rw [hij, hji, hlt, lessDocs_asymm env _ _ _ hlt]
    exact ⟨rfl, rfl⟩

/-- C3 at `{a: 1, b: "x"}`, `{a: 1, b: "y"}` with order list `a`, `b`: the tie on `a` is
decided by `b`, so the first document is less than the second and not conversely. -/
theorem Less_iff_first_difference_witness :
    (0 < exampleDocs.Docs.length ∧ 1 < exampleDocs.Docs.length) ∧
    exampleDocs.Less exampleEnv 0 1 = some true ∧
    exampleDocs.Less exampleEnv 1 0 = some false :=
  ⟨⟨by decide, by decide⟩,
   ((Less_iff_first_difference exampleEnv exampleDocs 0 1 (by decide) (by decide)).2.1).mpr
     ⟨["a"], "b", [], rfl, by decide, by decide, by decide⟩,
   by decide⟩

/-- C9: on the valid indices of a collection `Less` is a strict weak ordering: it is
irreflexive, asymmetric and transitive, and being incomparable is transitive and
means that every path of the order list resolves to the same string in both
documents. -/
theorem Less_strict_weak_order (env : Env) (d : Docs) (i j k : Nat)
    (hi : i < d.Docs.length) (hj : j < d.Docs.length) (hk : k < d.Docs.length) :
    d.Less env i i = some false ∧
    (d.Less env i j = some true → d.Less env j i = some false) ∧
    (d.Less env i j = some true → d.Less env j k = some true →
      d.Less env i k = some true) ∧
    (d.Less env i j = some false ∧ d.Less env j i = some false →
      d.Less env j k = some false ∧ d.Less env k j = some false →
      d.Less env i k = some false ∧ d.Less env k i = some false) ∧
    ((d.Less env i j = some false ∧ d.Less env j i = some false) ↔
      ∀ p ∈ d.Order, d.Docs[i].GetValueByPath env p = d.Docs[j].GetValueByPath env p) := by
  simp only [Less_eq_lessDocs env d _ _ hi hi, Less_eq_lessDocs env d _ _ hi hj,
    Less_eq_lessDocs env d _ _ hj hi, Less_eq_lessDocs env d _ _ hj hk,
    Less_eq_lessDocs env d _ _ hk hj, Less_eq_lessDocs env d _ _ hi hk,
    Less_eq_lessDocs env d _ _ hk hi, Option.some.injEq]
  refine ⟨lessDocs_irrefl env _ _, lessDocs_asymm env _ _ _, lessDocs_trans env _ _ _ _,
    ?_, lessDocs_incomparable_iff env _ _ _⟩
  intro h1 h2
  rw [lessDocs_incomparable_iff] at h1 h2 ⊢
  intro p hp
  exact (h1 p hp).trans (h2 p hp)

/-- C9 at `{a: 1, b: "x"}`, `{a: 1, b: "y"}`, `{a: 2, b: "a"}`, `{a: 2, b: "a", c: true}` with
order list `a`, `b`: the first is less than the second and the second less than the
third, hence the first less than the third; the last two are incomparable, and every
path of the order list resolves to the same string in both. -/
theorem Less_strict_weak_order_witness :
    (exampleChain.Less exampleEnv 0 0 = some false ∧
      exampleChain.Less exampleEnv 0 1 = some true ∧
      exampleChain.Less exampleEnv 1 0 = some false ∧
      exampleChain.Less exampleEnv 1 2 = some true ∧
      exampleChain.Less exampleEnv 0 2 = some true) ∧
    ((exampleChain.Less exampleEnv 2 3 = some false ∧
        exampleChain.Less exampleEnv 3 2 = some false) ∧
      (exampleChain.Less exampleEnv 2 2 = some false ∧
        exampleChain.Less exampleEnv 2 2 = some false) ∧
      ∀ p ∈ exampleChain.Order,
        exampleChain.Docs[2].GetValueByPath exampleEnv p =
          exampleChain.Docs[3].GetValueByPath exampleEnv p) :=
  ⟨⟨(Less_strict_weak_order exampleEnv exampleChain 0 1 2 (by decide) (by decide)
      (by decide)).1,
    by decide,
    (Less_strict_weak_order exampleEnv exampleChain 0 1 2 (by decide) (by decide)
      (by decide)).2.1 (by decide),
    by decide,
    (Less_strict_weak_order exampleEnv exampleChain 0 1 2 (by decide) (by decide)
      (by decide)).2.2.1 (by decide) (by decide)⟩,
   ⟨by decide,
    (Less_strict_weak_order exampleEnv exampleChain 2 3 2 (by decide) (by decide)
      (by decide)).2.2.2.1 (by decide) (by decide),
    (Less_strict_weak_order exampleEnv exampleChain 2 3 2 (by decide) (by decide)
      (by decide)).2.2.2.2.mp (by decide)⟩⟩

/-! ## File naming -/

theorem getDocFilePath_loop_eq (env : Env) (doc : Doc) :
    ∀ (paths acc : List String),
      DiffCommand.getDocFilePath.loop env doc paths acc =
        acc ++ ((resolved env doc paths).filter (fun v => v ≠ "")).map
          (fun v => ReplaceAll v '/' '_')
  | [], acc => by simp [DiffCommand.getDocFilePath.loop, resolved]
  | p :: rest, acc => by
    have ih := getDocFilePath_loop_eq env doc rest
    simp only [resolved] at ih
    simp only [DiffCommand.getDocFilePath.loop, resolved, List.map_cons]
    by_cases h : doc.GetValueByPath env p = ""
    · simp [h, ih]
    · simp [h, ih]

theorem filenameParts_eq_nil_iff (env : Env) (doc : Doc) (paths : List String) :
    ((resolved env doc paths).filter (fun v => v ≠ "")).map
        (fun v => ReplaceAll v '/' '_') = [] ↔
      ∀ p ∈ paths, doc.GetValueByPath env p = "" := by
  simp [resolved, List.filter_eq_nil_iff]

theorem ReplaceAll_ne_empty {v : String} (old new : Char) (h : v ≠ "") :
    ReplaceAll v old new ≠ "" := by
  cases v with
  | mk l =>
    cases l with
    | nil => exact absurd rfl h
    | cons c cs =>
      intro e
      have := congrArg String.data e
      simp [ReplaceAll] at this

theorem Join_ne_empty {a : String} (rest : List String) (sep : String) (h : a ≠ "") :
    Join (a :: rest) sep ≠ "" := by
  have ha : a.data ≠ [] := fun e => h (string_eq_of_data_eq e)
  cases rest with
  | nil => simpa [Join] using h
  | cons b r =>
    intro e
    have := congrArg String.data e
    simp [Join, ha] at this

theorem getDocFilePath_of_resolving (env : Env) (cmd : DiffCommand) (doc : Doc)
    (writeDir inputFile : String)
    (h : ∃ p ∈ Split cmd.paths ',', doc.GetValueByPath env p ≠ "") :
    cmd.getDocFilePath env doc writeDir inputFile =
      (env.filepathJoin writeDir (fileNameOf env doc (Split cmd.paths ',')), none) := by
  have hne : ¬ ((resolved env doc (Split cmd.paths ',')).filter (fun v => v ≠ "")).map
      (fun v => ReplaceAll v '/' '_') = [] := by
    rw [filenameParts_eq_nil_iff]
    push_neg
    exact h
  simp only [DiffCommand.getDocFilePath, getDocFilePath_loop_eq, List.nil_append,
    List.length_eq_zero, hne, if_false, fileNameOf]

theorem getDocFilePath_of_not_resolving (env : Env) (cmd : DiffCommand) (doc : Doc)
    (writeDir inputFile : String)
    (h : ∀ p ∈ Split cmd.paths ',', doc.GetValueByPath env p = "") :
    cmd.getDocFilePath env doc writeDir inputFile =
      ("", some (Error.noValuesFound cmd.paths inputFile)) := by
  have hnil := (filenameParts_eq_nil_iff env doc (Split cmd.paths ',')).mpr h
  simp only [DiffCommand.getDocFilePath, getDocFilePath_loop_eq, List.nil_append,
    List.length_eq_zero, hnil, if_true]

theorem fileNameOf_stem_ne_empty (env : Env) (doc : Doc) (paths : List String)
    (h : ∃ p ∈ paths, doc.GetValueByPath env p ≠ "") :
    ∃ stem, stem ≠ "" ∧ fileNameOf env doc paths = stem ++ ".yaml" := by
  refine ⟨_, ?_, rfl⟩
  have hne : ¬ ((resolved env doc paths).filter (fun v => v ≠ "")).map
      (fun v => ReplaceAll v '/' '_') = [] := by
    rw [filenameParts_eq_nil_iff]
    push_neg
    exact h
  cases hl : ((resolved env doc paths).filter (fun v => v ≠ "")).map
      (fun v => ReplaceAll v '/' '_') with
  | nil => exact absurd hl hne
  | cons a rest =>
    apply Join_ne_empty
    have ha : a ∈ ((resolved env doc paths).filter (fun v => v ≠ "")).map
        (fun v => ReplaceAll v '/' '_') := by rw [hl]; exact List.mem_cons_self _ _
    obtain ⟨v, hv, rfl⟩ := List.mem_map.mp ha
    have hv2 := (List.mem_filter.mp hv).2
    exact ReplaceAll_ne_empty _ _ (by simpa using hv2)

/-- C5: when at least one path of the comma-separated list resolves to a non-empty
value, `getDocFilePath` returns without error the write directory joined with the
name made of the non-empty resolved values in list order, `/` replaced with `_`,
joined with `_` and followed by `.yaml`. -/
theorem getDocFilePath_file_name (env : Env) (cmd : DiffCommand) (doc : Doc)
    (writeDir inputFile : String)
    (h : ∃ p ∈ Split cmd.paths ',', doc.GetValueByPath env p ≠ "") :
    cmd.getDocFilePath env doc writeDir inputFile =
      (env.filepathJoin writeDir
        (Join (((Split cmd.paths ',').map (doc.GetValueByPath env)).filter
          (fun v => v ≠ "") |>.map (fun v => ReplaceAll v '/' '_')) "_" ++ ".yaml"),
       none) :=
  getDocFilePath_of_resolving env cmd doc writeDir inputFile h

/-- C5 at paths `apiVersion,kind` and `{apiVersion: v1, kind: Pod}`: the file name is
`v1_Pod.yaml`. -/
theorem getDocFilePath_file_name_witness :
    (∃ p ∈ Split (diffWithPaths "apiVersion,kind").paths ',',
      examplePod.GetValueByPath exampleEnv p ≠ "") ∧
    (diffWithPaths "apiVersion,kind").getDocFilePath exampleEnv examplePod "0" "in.yaml" =
      ("0/v1_Pod.yaml", none) :=
  ⟨⟨"kind", by decide, by decide⟩,
   getDocFilePath_file_name exampleEnv (diffWithPaths "apiVersion,kind") examplePod "0"
     "in.yaml" ⟨"kind", by decide, by decide⟩⟩

/-- C6: `getDocFilePath` returns an error exactly when every path of the list resolves
to the empty string, and then the path it returns is empty; as soon as one path
resolves, paths that do not are skipped and the result is the write directory joined
with a name whose stem before `.yaml` is not empty. -/
theorem getDocFilePath_error_iff (env : Env) (cmd : DiffCommand) (doc : Doc)
    (writeDir inputFile : String) :
    ((cmd.getDocFilePath env doc writeDir inputFile).2 ≠ none ↔
      ∀ p ∈ Split cmd.paths ',', doc.GetValueByPath env p = "") ∧
    ((∀ p ∈ Split cmd.paths ',', doc.GetValueByPath env p = "") →
      cmd.getDocFilePath env doc writeDir inputFile =
        ("", some (Error.noValuesFound cmd.paths inputFile))) ∧
    ((∃ p ∈ Split cmd.paths ',', doc.GetValueByPath env p ≠ "") →
      ∃ stem, stem ≠ "" ∧
        cmd.getDocFilePath env doc writeDir inputFile =
          (env.filepathJoin writeDir (stem ++ ".yaml"), none)) := by
  refine ⟨?_, getDocFilePath_of_not_resolving env cmd doc writeDir inputFile, ?_⟩
  · constructor
    · intro herr
      by_contra hcon
      push_neg at hcon
      rw [getDocFilePath_of_resolving env cmd doc writeDir inputFile hcon] at herr
      exact herr rfl
    · intro h
      rw [getDocFilePath_of_not_resolving env cmd doc writeDir inputFile h]
      exact fun e => Option.noConfusion e
  · intro h
    obtain ⟨stem, hs, he⟩ := fileNameOf_stem_ne_empty env doc _ h
    exact ⟨stem, hs, by rw [getDocFilePath_of_resolving env cmd doc writeDir inputFile h, he]⟩

/-- C6 at paths `x.y`: the document `{a: {b: 1}}` lacks `x.y` and gets the error that no
value was found; with paths `x.y,kind` the document `{apiVersion: v1, kind: Pod}` gets a
path although `x.y` does not resolve. -/
theorem getDocFilePath_error_iff_witness :
    ((∀ p ∈ Split (diffWithPaths "x.y").paths ',',
        exampleLacking.GetValueByPath exampleEnv p = "") ∧
      (diffWithPaths "x.y").getDocFilePath exampleEnv exampleLacking "0" "in.yaml" =
        ("", some (Error.noValuesFound "x.y" "in.yaml"))) ∧
    ((∃ p ∈ Split (diffWithPaths "x.y,kind").paths ',',
        examplePod.GetValueByPath exampleEnv p ≠ "") ∧
      ∃ stem, stem ≠ "" ∧
        (diffWithPaths "x.y,kind").getDocFilePath exampleEnv examplePod "0" "in.yaml" =
          (exampleEnv.filepathJoin "0" (stem ++ ".yaml"), none)) :=
  ⟨⟨by decide,
    (getDocFilePath_error_iff exampleEnv (diffWithPaths "x.y") exampleLacking "0"
      "in.yaml").2.1 (by decide)⟩,
   ⟨⟨"kind", by decide, by decide⟩,
    (getDocFilePath_error_iff exampleEnv (diffWithPaths "x.y,kind") examplePod "0"
      "in.yaml").2.2 ⟨"kind", by decide, by decide⟩⟩⟩

/-- C10: `getDocFilePath` is not injective on the resolved values.  With one path,
the values `a/b` and `a_b` give the same file path; with two paths, the value lists
`x_y`, `z` and `x`, `y_z` do; and so do a document resolving only the first of two
paths to `x` and one resolving only the second to `x`.  Written one after the other,
the documents of the first pair are reported as a naming collision. -/
theorem getDocFilePath_not_injective (env : Env) (writeDir inputFile : String) :
    (resolved env slashDoc (Split (diffWithPaths "k").paths ',') ≠
        resolved env underscoreDoc (Split (diffWithPaths "k").paths ',') ∧
      (diffWithPaths "k").getDocFilePath env slashDoc writeDir inputFile =
        (env.filepathJoin writeDir "a_b.yaml", none) ∧
      (diffWithPaths "k").getDocFilePath env underscoreDoc writeDir inputFile =
        (env.filepathJoin writeDir "a_b.yaml", none)) ∧
    (resolved env leftHeavyDoc (Split (diffWithPaths "p,q").paths ',') ≠
        resolved env rightHeavyDoc (Split (diffWithPaths "p,q").paths ',') ∧
      (diffWithPaths "p,q").getDocFilePath env leftHeavyDoc writeDir inputFile =
        (env.filepathJoin writeDir "x_y_z.yaml", none) ∧
      (diffWithPaths "p,q").getDocFilePath env rightHeavyDoc writeDir inputFile =
        (env.filepathJoin writeDir "x_y_z.yaml", none)) ∧
    (resolved env onlyFirstDoc (Split (diffWithPaths "p,q").paths ',') ≠
        resolved env onlySecondDoc (Split (diffWithPaths "p,q").paths ',') ∧
      (diffWithPaths "p,q").getDocFilePath env onlyFirstDoc writeDir inputFile =
        (env.filepathJoin writeDir "x.yaml", none) ∧
      (diffWithPaths "p,q").getDocFilePath env onlySecondDoc writeDir inputFile =
        (env.filepathJoin writeDir "x.yaml", none)) ∧
    ((diffWithPaths "k").writeYamlDocs exampleEnv "0" [slashDoc, underscoreDoc] "in.yaml"
        emptyWorld).1 =
      some (Error.getFileToWriteFailed (Error.alreadyExists "0/a_b.yaml" "k" "in.yaml")) := by
  refine ⟨⟨?_, rfl, rfl⟩, ⟨?_, rfl, rfl⟩, ⟨?_, rfl, rfl⟩, rfl⟩
  · have h1 : resolved env slashDoc (Split (diffWithPaths "k").paths ',') = ["a/b"] := rfl
    have h2 : resolved env underscoreDoc (Split (diffWithPaths "k").paths ',') = ["a_b"] := rfl
    rw [h1, h2]; decide
  · have h1 : resolved env leftHeavyDoc (Split (diffWithPaths "p,q").paths ',')
        = ["x_y", "z"] := rfl
    have h2 : resolved env rightHeavyDoc (Split (diffWithPaths "p,q").paths ',')
        = ["x", "y_z"] := rfl
    rw [h1, h2]; decide
  · have h1 : resolved env onlyFirstDoc (Split (diffWithPaths "p,q").paths ',')
        = ["x", ""] := rfl
    have h2 : resolved env onlySecondDoc (Split (diffWithPaths "p,q").paths ',')
        = ["", "x"] := rfl
    rw [h1, h2]; decide

/-! ## Writing the documents of one input file -/

theorem writeYamlDocs_step (env : Env) (cmd : DiffCommand) (writeDir inputYaml : String)
    (doc : Doc) (rest : List Doc) (w : World) :
    (∃ x err, cmd.getDocFilePath env doc writeDir inputYaml = (x, some err) ∧
      DiffCommand.writeYamlDocs.loop env cmd writeDir inputYaml (doc :: rest) w =
        (some (Error.getDocFilePathFailed err), w)) ∨
    (∃ fp, cmd.getDocFilePath env doc writeDir inputYaml = (fp, none) ∧
      (fp ∈ w.files ∨ env.statFails fp = true) ∧
      DiffCommand.writeYamlDocs.loop env cmd writeDir inputYaml (doc :: rest) w =
        (some (Error.getFileToWriteFailed (Error.alreadyExists fp cmd.paths inputYaml)), w)) ∨
    (∃ fp, cmd.getDocFilePath env doc writeDir inputYaml = (fp, none) ∧ fp ∉ w.files ∧
      DiffCommand.writeYamlDocs.loop env cmd writeDir inputYaml (doc :: rest) w =
        (some (Error.getFileToWriteFailed (Error.createFailed fp)), w)) ∨
    (∃ fp, cmd.getDocFilePath env doc writeDir inputYaml = (fp, none) ∧ fp ∉ w.files ∧
      DiffCommand.writeYamlDocs.loop env cmd writeDir inputYaml (doc :: rest) w =
        (some Error.encodeFailed, { w with files := fp :: w.files })) ∨
    (∃ fp, cmd.getDocFilePath env doc writeDir inputYaml = (fp, none) ∧ fp ∉ w.files ∧
      DiffCommand.writeYamlDocs.loop env cmd writeDir inputYaml (doc :: rest) w =
        DiffCommand.writeYamlDocs.loop env cmd writeDir inputYaml rest
          { files := fp :: w.files, written := w.written ++ [(fp, doc)] }) := by
  rcases hg : cmd.getDocFilePath env doc writeDir inputYaml with ⟨fp, _ | err⟩
  · right
    by_cases hx : fp ∈ w.files ∨ env.statFails fp = true
    · left
      refine ⟨fp, rfl, hx, ?_⟩
      simp only [DiffCommand.writeYamlDocs.loop, hg, DiffCommand.getFileToWrite, if_pos hx]
    · right
      have hmem : fp ∉ w.files := fun h => hx (Or.inl h)
      by_cases hc : env.createOk fp = true
      · right
        by_cases he : env.encodeOk doc = true
        · right
          refine ⟨fp, rfl, hmem, ?_⟩
          simp only [DiffCommand.writeYamlDocs.loop, hg, DiffCommand.getFileToWrite, if_neg hx,
            if_pos hc, if_pos he]
        · left
          refine ⟨fp, rfl, hmem, ?_⟩
          simp only [DiffCommand.writeYamlDocs.loop, hg, DiffCommand.getFileToWrite, if_neg hx,
            if_pos hc, if_neg he]
      · left
        refine ⟨fp, rfl, hmem, ?_⟩
        simp only [DiffCommand.writeYamlDocs.loop, hg, DiffCommand.getFileToWrite, if_neg hx,
          if_neg hc]
  · left
    refine ⟨fp, err, rfl, ?_⟩
    simp [DiffCommand.writeYamlDocs.loop, hg]

theorem writeYamlDocs_loop_append (env : Env) (cmd : DiffCommand)
    (writeDir inputYaml : String) (rest : List Doc) :
    ∀ (pre : List Doc) (w : World),
      DiffCommand.writeYamlDocs.loop env cmd writeDir inputYaml (pre ++ rest) w =
        match DiffCommand.writeYamlDocs.loop env cmd writeDir inputYaml pre w with
        | (none, w1) => DiffCommand.writeYamlDocs.loop env cmd writeDir inputYaml rest w1
        | (some e, w1) => (some e, w1)
  | [], w => by simp [DiffCommand.writeYamlDocs.loop]
  | d :: pre, w => by
    have ih := writeYamlDocs_loop_append env cmd writeDir inputYaml rest pre
    simp only [List.cons_append, DiffCommand.writeYamlDocs.loop]
    rcases cmd.getDocFilePath env d writeDir inputYaml with ⟨fp, _ | err⟩
    · simp only
      rcases cmd.getFileToWrite env fp inputYaml w.files with ⟨_ | err, files⟩
      · simp only
        by_cases he : env.encodeOk d = true
        · simp only [he, if_true]
          exact ih _
        · simp only [he, if_false]
          rfl
      · rfl
    · rfl

theorem writeYamlDocs_loop_ok (env : Env) (cmd : DiffCommand) (writeDir inputYaml : String) :
    ∀ (docs : List Doc) (w w1 : World),
      DiffCommand.writeYamlDocs.loop env cmd writeDir inputYaml docs w = (none, w1) →
      (∀ p ∈ w.files, p ∈ w1.files) ∧
      ∀ d ∈ docs, ∃ fp, cmd.getDocFilePath env d writeDir inputYaml = (fp, none) ∧
        fp ∈ w1.files
  | [], w, w1, h => by
    simp only [DiffCommand.writeYamlDocs.loop, Prod.mk.injEq, true_and] at h
    subst h
    exact ⟨fun _ hp => hp, fun _ hd => absurd hd (List.not_mem_nil _)⟩
  | d :: rest, w, w1, h => by
    rcases writeYamlDocs_step env cmd writeDir inputYaml d rest w with
      ⟨_, _, _, e⟩ | ⟨_, _, _, e⟩ | ⟨_, _, _, e⟩ | ⟨_, _, _, e⟩ | ⟨fp, hg, _, e⟩
    · rw [e] at h; simp at h
    · rw [e] at h; simp at h
    · rw [e] at h; simp at h
    · rw [e] at h; simp at h
    · rw [e] at h
      obtain ⟨h1, h2⟩ := writeYamlDocs_loop_ok env cmd writeDir inputYaml rest _ w1 h
      refine ⟨fun p hp => h1 p (List.mem_cons_of_mem _ hp), ?_⟩
      intro d2 hd2
      rcases List.mem_cons.mp hd2 with rfl | hd2
      · exact ⟨fp, hg, h1 fp (List.mem_cons_self _ _)⟩
      · exact h2 d2 hd2

theorem writeYamlDocs_loop_written_nodup (env : Env) (cmd : DiffCommand)
    (writeDir inputYaml : String) :
    ∀ (docs : List Doc) (w : World),
      (w.written.map Prod.fst).Nodup → (∀ p ∈ w.written.map Prod.fst, p ∈ w.files) →
      ((DiffCommand.writeYamlDocs.loop env cmd writeDir inputYaml docs w).2.written.map
        Prod.fst).Nodup
  | [], w, hn, _ => by simpa [DiffCommand.writeYamlDocs.loop] using hn
  | d :: rest, w, hn, hsub => by
    rcases writeYamlDocs_step env cmd writeDir inputYaml d rest w with
      ⟨_, _, _, e⟩ | ⟨_, _, _, e⟩ | ⟨_, _, _, e⟩ | ⟨_, _, _, e⟩ | ⟨fp, _, hnot, e⟩
    · rw [e]; exact hn
    · rw [e]; exact hn
    · rw [e]; exact hn
    · rw [e]; exact hn
    · rw [e]
      apply writeYamlDocs_loop_written_nodup env cmd writeDir inputYaml rest
      · simp only [List.map_append, List.map_cons, List.map_nil]
        rw [List.nodup_append]
        refine ⟨hn, List.nodup_singleton _, ?_⟩
        intro p hp hp2
        rw [List.mem_singleton] at hp2
        subst hp2
        exact hnot (hsub _ hp)
      · intro p hp
        simp only [List.map_append, List.map_cons, List.map_nil, List.mem_append,
          List.mem_singleton] at hp
        rcases hp with hp | rfl
        · exact List.mem_cons_of_mem _ (hsub p hp)
        · exact List.mem_cons_self _ _

theorem writeYamlDocs_loop_no_collision (env : Env) (cmd : DiffCommand)
    (writeDir inputYaml : String) :
    (∀ p, env.statFails p = false) →
    ∀ (docs : List Doc) (w : World),
      (∀ d ∈ docs, (cmd.getDocFilePath env d writeDir inputYaml).2 = none) →
      (docs.map fun d => (cmd.getDocFilePath env d writeDir inputYaml).1).Nodup →
      (∀ d ∈ docs, (cmd.getDocFilePath env d writeDir inputYaml).1 ∉ w.files) →
      ∀ fp ps inf,
        (DiffCommand.writeYamlDocs.loop env cmd writeDir inputYaml docs w).1 ≠
          some (Error.getFileToWriteFailed (Error.alreadyExists fp ps inf))
  | _, [], w, _, _, _ => by simp [DiffCommand.writeYamlDocs.loop]
  | hstat, d :: rest, w, hok, hnd, hfresh => by
    intro fp0 ps inf
    rcases writeYamlDocs_step env cmd writeDir inputYaml d rest w with
      ⟨_, _, _, e⟩ | ⟨fp, hg, hmem, _⟩ | ⟨_, _, _, e⟩ | ⟨_, _, _, e⟩ | ⟨fp, hg, _, e⟩
    · rw [e]; simp
    · have := hfresh d (List.mem_cons_self _ _)
      rw [hg] at this
      rcases hmem with hmem | hmem
      · exact absurd hmem this
      · rw [hstat fp] at hmem
        exact absurd hmem Bool.false_ne_true
    · rw [e]; simp
    · rw [e]; simp
    · rw [e]
      rw [List.map_cons, List.nodup_cons] at hnd
      apply writeYamlDocs_loop_no_collision env cmd writeDir inputYaml hstat rest
      · exact fun d2 hd2 => hok d2 (List.mem_cons_of_mem _ hd2)
      · exact hnd.2
      · intro d2 hd2 hmem
        rcases List.mem_cons.mp hmem with h | h
        · apply hnd.1
          rw [hg]
          exact List.mem_map.mpr ⟨d2, hd2, h⟩
        · exact hfresh d2 (List.mem_cons_of_mem _ hd2) h

/-- The run of `writeYamlDocs` on the documents of one input file in an empty target
directory.  If a document derives the same file as one before it, the run fails, and
if it gets as far as that document it fails there with the error that the file
already exists; the files the documents were written to are pairwise distinct, so no
document is written over the file of an earlier one; and if `os.Stat` fails with
not-exist only, every derivation succeeds and the derived files are pairwise
distinct, the run does not fail with the already-exists error. -/
theorem writeYamlDocs_in_empty_directory (env : Env) (cmd : DiffCommand) (writeDir inputYaml : String)
    (docs : List Doc) :
    (∀ pre d post d1 fp, docs = pre ++ d :: post → d1 ∈ pre →
      cmd.getDocFilePath env d1 writeDir inputYaml = (fp, none) →
      cmd.getDocFilePath env d writeDir inputYaml = (fp, none) →
      (cmd.writeYamlDocs env writeDir docs inputYaml emptyWorld).1 ≠ none ∧
      ∀ w, cmd.writeYamlDocs env writeDir pre inputYaml emptyWorld = (none, w) →
        cmd.writeYamlDocs env writeDir docs inputYaml emptyWorld =
          (some (Error.getFileToWriteFailed (Error.alreadyExists fp cmd.paths inputYaml)),
            w)) ∧
    ((cmd.writeYamlDocs env writeDir docs inputYaml emptyWorld).2.written.map
      Prod.fst).Nodup ∧
    ((∀ p, env.statFails p = false) →
      (∀ d ∈ docs, (cmd.getDocFilePath env d writeDir inputYaml).2 = none) →
      (docs.map fun d => (cmd.getDocFilePath env d writeDir inputYaml).1).Nodup →
      ∀ fp ps inf, (cmd.writeYamlDocs env writeDir docs inputYaml emptyWorld).1 ≠
        some (Error.getFileToWriteFailed (Error.alreadyExists fp ps inf))) := by
  refine ⟨?_, ?_, ?_⟩
  · intro pre d post d1 fp hdocs hd1 hg1 hg
    have hreach : ∀ w, cmd.writeYamlDocs env writeDir pre inputYaml emptyWorld = (none, w) →
        cmd.writeYamlDocs env writeDir docs inputYaml emptyWorld =
          (some (Error.getFileToWriteFailed (Error.alreadyExists fp cmd.paths inputYaml)),
            w) := by
      intro w hw
      simp only [DiffCommand.writeYamlDocs] at hw ⊢
      rw [hdocs, writeYamlDocs_loop_append, hw]
      obtain ⟨_, h2⟩ := writeYamlDocs_loop_ok env cmd writeDir inputYaml pre _ w hw
      obtain ⟨fp1, hfp1, hmem⟩ := h2 d1 hd1
      rw [hg1] at hfp1
      have hfp : fp1 = fp := (Prod.mk.inj hfp1).1.symm
      subst hfp
      simp [DiffCommand.writeYamlDocs.loop, hg, DiffCommand.getFileToWrite, hmem]
    refine ⟨?_, hreach⟩
    rcases hpre : cmd.writeYamlDocs env writeDir pre inputYaml emptyWorld with ⟨_ | e, w⟩
    · rw [hreach w hpre]; simp
    · simp only [DiffCommand.writeYamlDocs] at hpre ⊢
      rw [hdocs, writeYamlDocs_loop_append, hpre]; simp
  · exact writeYamlDocs_loop_written_nodup env cmd writeDir inputYaml docs emptyWorld
      List.nodup_nil (fun _ hp => absurd hp (List.not_mem_nil _))
  · intro hstat hok hnd
    exact writeYamlDocs_loop_no_collision env cmd writeDir inputYaml hstat docs emptyWorld hok hnd
      (fun _ _ hmem => absurd hmem (List.not_mem_nil _))

/-- C7 fails on the code for a document whose file name is too long for the file
system.  With `os.Stat` failing for a last path element of more than 255 characters,
the single document `{k: "n...n"}` (300 times `n`) and paths `k`, written into the
empty directory, derives its file without error and has no other document to
collide with, yet `writeYamlDocs` returns the error that the file already exists and
the paths are not unique. -/
theorem writeYamlDocs_long_name_reported_as_collision :
    longNameEnv.statFails ("0/" ++ longName ++ ".yaml") = true ∧
    (diffWithPaths "k").getDocFilePath longNameEnv longNameDoc "0" "in.yaml" =
      ("0/" ++ longName ++ ".yaml", none) ∧
    ([longNameDoc].map fun d =>
      ((diffWithPaths "k").getDocFilePath longNameEnv d "0" "in.yaml").1).Nodup ∧
    (diffWithPaths "k").writeYamlDocs longNameEnv "0" [longNameDoc] "in.yaml" emptyWorld =
      (some (Error.getFileToWriteFailed
        (Error.alreadyExists ("0/" ++ longName ++ ".yaml") "k" "in.yaml")), emptyWorld) :=
  ⟨by decide, rfl, List.nodup_singleton _, rfl⟩

/-! ## Sorting -/

theorem lessDocs_negTrans (env : Env) (a b c : Doc) (order : List String)
    (hab : lessDocs env a b order = false) (hbc : lessDocs env b c order = false) :
    lessDocs env a c order = false := by
  induction order with
  | nil => rfl
  | cons p rest ih =>
    simp only [lessDocs] at hab hbc ⊢
    by_cases e1 : a.GetValueByPath env p = b.GetValueByPath env p
    · rw [if_neg (not_not.mpr e1)] at hab
      by_cases e2 : b.GetValueByPath env p = c.GetValueByPath env p
      · rw [if_neg (not_not.mpr e2)] at hbc
        rw [if_neg (not_not.mpr (e1.trans e2))]
        exact ih hab hbc
      · rw [if_pos e2] at hbc
        rw [e1, if_pos e2]
        exact hbc
    · rw [if_pos e1] at hab
      by_cases e2 : b.GetValueByPath env p = c.GetValueByPath env p
      · rw [← e2, if_pos e1]
        exact hab
      · rw [if_pos e2] at hbc
        have hba : stringLess (b.GetValueByPath env p) (a.GetValueByPath env p) = true := by
          by_contra hcon
          exact e1 (stringLess_connected hab (Bool.not_eq_true _ ▸ hcon))
        have hcb : stringLess (c.GetValueByPath env p) (b.GetValueByPath env p) = true := by
          by_contra hcon
          exact e2 (stringLess_connected hbc (Bool.not_eq_true _ ▸ hcon))
        have hca := stringLess_trans hcb hba
        have e3 : a.GetValueByPath env p ≠ c.GetValueByPath env p := by
          intro e
          rw [e, stringLess_irrefl] at hca
          exact Bool.false_ne_true hca
        rw [if_pos e3]
        exact stringLess_asymm hca

theorem lessDocs_total (env : Env) (a b : Doc) (order : List String) :
    lessDocs env b a order = false ∨ lessDocs env a b order = false := by
  cases h : lessDocs env a b order
  · exact Or.inr rfl
  · exact Or.inl (lessDocs_asymm env a b order h)

theorem getElem?_append_cons_self (L R : List Doc) (x : Doc) :
    (L ++ x :: R)[L.length]? = some x := by
  rw [List.getElem?_append_right (Nat.le_refl _)]
  simp

theorem getElem?_append_cons_next (L R : List Doc) (y x : Doc) :
    (L ++ y :: x :: R)[L.length + 1]? = some x := by
  rw [List.getElem?_append_right (by omega)]
  simp

theorem Swap_adjacent (order : List String) (L R : List Doc) (y x : Doc) :
    Docs.Swap { Docs := L ++ y :: x :: R, Order := order } (L.length + 1) L.length =
      some { Docs := L ++ x :: y :: R, Order := order } := by
  simp only [Docs.Swap, getElem?_append_cons_next, getElem?_append_cons_self]
  simp

theorem Less_adjacent (env : Env) (order : List String) (L R : List Doc) (y x : Doc) :
    Docs.Less env { Docs := L ++ y :: x :: R, Order := order } (L.length + 1) L.length =
      some (lessDocs env x y order) :=
  Less_loop_eq_lessDocs env _ _ _ x y (getElem?_append_cons_next L R y x)
    (getElem?_append_cons_self L (x :: R) y) order

theorem insertBack_length (env : Env) (order : List String) (x : Doc) (l : List Doc) :
    (insertBack env order x l).length = l.length + 1 := by
  induction l with
  | nil => rfl
  | cons y ys ih =>
    simp only [insertBack]
    split <;> simp [ih]

theorem insertionSort_inner_eq (env : Env) (order : List String) (x : Doc) :
    ∀ (prev R : List Doc),
      sort.insertionSort.inner env 0 prev.length
          { Docs := prev.reverse ++ x :: R, Order := order } =
        some { Docs := (insertBack env order x prev).reverse ++ R, Order := order }
  | [], R => by simp [sort.insertionSort.inner, insertBack]
  | y :: ys, R => by
    have hL : (ys.reverse).length = ys.length := List.length_reverse ys
    have hdocs : (y :: ys).reverse ++ x :: R = ys.reverse ++ y :: x :: R := by simp
    have hless := Less_adjacent env order ys.reverse R y x
    have hswap := Swap_adjacent order ys.reverse R y x
    rw [hL] at hless hswap
    simp only [List.length_cons, sort.insertionSort.inner, Nat.zero_lt_succ, if_true, hdocs,
      hless]
    cases hxy : lessDocs env x y order
    · simp [insertBack, hxy]
    · simp only [hswap, insertBack, hxy, if_true]
      rw [insertionSort_inner_eq env order x ys (y :: R)]
      simp

theorem insertionSort_outer_eq (env : Env) (order : List String) :
    ∀ (R prev : List Doc),
      sort.insertionSort.outer env 0 R.length prev.length
          { Docs := prev.reverse ++ R, Order := order } =
        some { Docs := (R.foldl (fun acc x => insertBack env order x acc) prev).reverse,
               Order := order }
  | [], prev => by simp [sort.insertionSort.outer]
  | x :: R, prev => by
    simp only [List.length_cons, sort.insertionSort.outer, insertionSort_inner_eq,
      List.foldl_cons]
    have := insertionSort_outer_eq env order R (insertBack env order x prev)
    rw [insertBack_length] at this
    exact this

theorem insertionSort_eq (env : Env) (order : List String) (docs : List Doc) :
    sort.insertionSort env { Docs := docs, Order := order } 0 docs.length =
      some { Docs := (docs.foldl (fun acc x => insertBack env order x acc) []).reverse,
             Order := order } := by
  cases docs with
  | nil => simp [sort.insertionSort, sort.insertionSort.outer]
  | cons x R =>
    have := insertionSort_outer_eq env order R [x]
    simpa [sort.insertionSort, insertBack] using this

theorem Sort_eq_of_length_le (env : Env) (order : List String) (docs : List Doc)
    (h : docs.length ≤ 12) :
    sort.Sort env { Docs := docs, Order := order } =
      some { Docs := (docs.foldl (fun acc x => insertBack env order x acc) []).reverse,
             Order := order } := by
  by_cases h1 : docs.length ≤ 1
  · simp only [sort.Sort, Docs.Len, h1, if_true]
    match docs, h1 with
    | [], _ => rfl
    | [x], _ => rfl
    | _ :: _ :: _, h1 => simp at h1
  · simp only [sort.Sort, Docs.Len, h1, if_false, sort.pdqsort, sort.pdqsort.loop,
      Nat.sub_zero, h, if_true]
    exact insertionSort_eq env order docs

theorem insertBack_perm (env : Env) (order : List String) (x : Doc) (l : List Doc) :
    (insertBack env order x l).Perm (x :: l) := by
  induction l with
  | nil => exact List.Perm.refl _
  | cons y ys ih =>
    simp only [insertBack]
    split
    · exact (List.Perm.cons y ih).trans (List.Perm.swap x y ys)
    · exact List.Perm.refl _

theorem foldl_insertBack_perm (env : Env) (order : List String) :
    ∀ (docs acc : List Doc),
      (docs.foldl (fun acc x => insertBack env order x acc) acc).Perm (docs.reverse ++ acc)
  | [], acc => by simp
  | x :: R, acc => by
    simp only [List.foldl_cons, List.reverse_cons, List.append_assoc, List.singleton_append]
    exact (foldl_insertBack_perm env order R _).trans
      (List.Perm.append_left _ (insertBack_perm env order x acc))

theorem insertBack_sorted (env : Env) (order : List String) (x : Doc) (l : List Doc)
    (hl : l.Pairwise fun p q => lessDocs env p q order = false) :
    (insertBack env order x l).Pairwise fun p q => lessDocs env p q order = false := by
  induction l with
  | nil => simp [insertBack]
  | cons y ys ih =>
    rw [List.pairwise_cons] at hl
    simp only [insertBack]
    by_cases hxy : lessDocs env x y order = true
    · rw [if_pos hxy, List.pairwise_cons]
      refine ⟨?_, ih hl.2⟩
      intro z hz
      rcases (List.mem_cons.mp ((insertBack_perm env order x ys).subset hz)) with rfl | hz
      · exact lessDocs_asymm env _ _ order hxy
      · exact hl.1 z hz
    · rw [if_neg hxy, List.pairwise_cons]
      have hxy2 : lessDocs env x y order = false := by simpa using hxy
      refine ⟨?_, List.pairwise_cons.mpr hl⟩
      intro z hz
      rcases List.mem_cons.mp hz with rfl | hz
      · exact hxy2
      · exact lessDocs_negTrans env x y z order hxy2 (hl.1 z hz)

theorem foldl_insertBack_sorted (env : Env) (order : List String) :
    ∀ (docs acc : List Doc), (acc.Pairwise fun p q => lessDocs env p q order = false) →
      (docs.foldl (fun acc x => insertBack env order x acc) acc).Pairwise
        fun p q => lessDocs env p q order = false
  | [], _, h => h
  | x :: R, acc, h => by
    simp only [List.foldl_cons]
    exact foldl_insertBack_sorted env order R _ (insertBack_sorted env order x acc h)

theorem equalUnder_false_of_less (env : Env) (order : List String) (d x y : Doc)
    (hd : equalUnder env order d x = true) (hxy : lessDocs env x y order = true) :
    equalUnder env order d y = false := by
  by_contra hcon
  have hy : equalUnder env order d y = true := by simpa using hcon
  simp only [equalUnder, Bool.and_eq_true, Bool.not_eq_true'] at hd hy
  have := lessDocs_negTrans env x d y order hd.2 hy.1
  rw [hxy] at this
  exact Bool.noConfusion this

theorem insertBack_filter (env : Env) (order : List String) (d x : Doc) (l : List Doc) :
    (insertBack env order x l).filter (equalUnder env order d) =
      (x :: l).filter (equalUnder env order d) := by
  induction l with
  | nil => rfl
  | cons y ys ih =>
    simp only [insertBack]
    by_cases hxy : lessDocs env x y order = true
    · rw [if_pos hxy]
      by_cases hd : equalUnder env order d x = true
      · have hy := equalUnder_false_of_less env order d x y hd hxy
        simp only [List.filter_cons, hy, hd, if_true] at ih ⊢
        simpa using ih
      · simp only [List.filter_cons, hd] at ih ⊢
        simp only [if_false, Bool.false_eq_true] at ih ⊢
        rw [ih]
    · rw [if_neg hxy]

theorem foldl_insertBack_filter (env : Env) (order : List String) (d : Doc) :
    ∀ (docs acc : List Doc),
      (docs.foldl (fun acc x => insertBack env order x acc) acc).filter
          (equalUnder env order d) =
        (docs.reverse ++ acc).filter (equalUnder env order d)
  | [], acc => by simp
  | x :: R, acc => by
    simp only [List.foldl_cons, List.reverse_cons, List.append_assoc, List.singleton_append]
    rw [foldl_insertBack_filter env order d R, List.filter_append, List.filter_append,
      insertBack_filter]

/-- C4 amended: for every order flag and every collection of at most twelve documents
`sortYAMLDocuments` returns a permutation of the documents that is stable, documents
that compare equal under the comma-separated order list keeping their input order,
and, for a non-empty order flag, ascending: no document is less than one before it.
(Twelve is the length up to which `sort.Sort` sorts by insertion.) -/
theorem sortYAMLDocuments_stable_of_length_le (env : Env) (documents : List Doc)
    (orderFlag : String) (h : documents.length ≤ 12) :
    ∃ out, sortYAMLDocuments env documents orderFlag = some out ∧
      out.Perm documents ∧
      (orderFlag ≠ "" →
        out.Pairwise fun a b => lessDocs env b a (Split orderFlag ',') = false) ∧
      Stable env (Split orderFlag ',') documents out := by
  by_cases ho : orderFlag = ""
  · refine ⟨documents, ?_, List.Perm.refl _, fun e => absurd ho e, fun _ => rfl⟩
    simp [sortYAMLDocuments, ho]
  · refine ⟨(documents.foldl (fun acc x => insertBack env (Split orderFlag ',') x acc)
      []).reverse, ?_, ?_, fun _ => ?_, ?_⟩
    · simp only [sortYAMLDocuments, ne_eq, ho, not_false_eq_true, if_true,
        Sort_eq_of_length_le env (Split orderFlag ',') documents h]
    · have := foldl_insertBack_perm env (Split orderFlag ',') documents []
      rw [List.append_nil] at this
      exact (List.reverse_perm _).trans (this.trans (List.reverse_perm _))
    · rw [List.pairwise_reverse]
      exact foldl_insertBack_sorted env (Split orderFlag ',') documents [] List.Pairwise.nil
    · intro d
      rw [List.filter_reverse, foldl_insertBack_filter, List.append_nil, List.filter_reverse,
        List.reverse_reverse]

/-- C4 amended, at `{a: 2, b: "x"}`, `{a: 1, b: "y"}`, `{a: 1, b: "z"}` sorted by `a`: the
first document is printed last and the other two keep their order. -/
theorem sortYAMLDocuments_stable_of_length_le_witness :
    [Doc.map [("a", Value.int 2), ("b", Value.str "x")],
      Doc.map [("a", Value.int 1), ("b", Value.str "y")],
      Doc.map [("a", Value.int 1), ("b", Value.str "z")]].length ≤ 12 ∧
    sortYAMLDocuments exampleEnv
        [Doc.map [("a", Value.int 2), ("b", Value.str "x")],
         Doc.map [("a", Value.int 1), ("b", Value.str "y")],
         Doc.map [("a", Value.int 1), ("b", Value.str "z")]] "a" =
      some [Doc.map [("a", Value.int 1), ("b", Value.str "y")],
            Doc.map [("a", Value.int 1), ("b", Value.str "z")],
            Doc.map [("a", Value.int 2), ("b", Value.str "x")]] ∧
    ∃ out, sortYAMLDocuments exampleEnv
        [Doc.map [("a", Value.int 2), ("b", Value.str "x")],
         Doc.map [("a", Value.int 1), ("b", Value.str "y")],
         Doc.map [("a", Value.int 1), ("b", Value.str "z")]] "a" = some out ∧
      out.Perm [Doc.map [("a", Value.int 2), ("b", Value.str "x")],
         Doc.map [("a", Value.int 1), ("b", Value.str "y")],
         Doc.map [("a", Value.int 1), ("b", Value.str "z")]] ∧
      ("a" ≠ "" → out.Pairwise fun a b => lessDocs exampleEnv b a (Split "a" ',') = false) ∧
      Stable exampleEnv (Split "a" ',')
        [Doc.map [("a", Value.int 2), ("b", Value.str "x")],
         Doc.map [("a", Value.int 1), ("b", Value.str "y")],
         Doc.map [("a", Value.int 1), ("b", Value.str "z")]] out :=
  ⟨by decide, rfl,
   sortYAMLDocuments_stable_of_length_le exampleEnv _ "a" (by decide)⟩

theorem sortYAMLDocuments_thirteen (env : Env) :
    sortYAMLDocuments env thirteenDocs "a" = some thirteenSorted :=
  rfl

/-- C4 as stated fails at thirteen documents: twelve with `a: "1"` followed by one with
`a: "0"`, sorted by `a`.  `sort.Sort` takes the seventh document as pivot and swaps it
to the front, and the documents with `a: "1"`, which compare equal, come out in the
order `d06`, `d02`, ..., `d05`, `d00`, `d07`, ..., `d11`, `d01` instead of their input
order. -/
theorem sortYAMLDocuments_not_stable :
    sortYAMLDocuments exampleEnv thirteenDocs "a" = some thirteenSorted ∧
    ¬ Stable exampleEnv (Split "a" ',') thirteenDocs thirteenSorted := by
  refine ⟨rfl, ?_⟩
  intro h
  have hb := congrArg (fun l => l.map fun x => x.GetValueByPath exampleEnv "b")
    (h (keyed "1" "d00"))
  exact absurd hb (by decide)

/-! ## Splitting the command line -/

theorem parseArgs_loop_eq (argsKnown : List String) :
    ∀ (args argsParse argsDifftastic : List String),
      DiffCommand.parseArgs.loop argsKnown args (argsParse, argsDifftastic) =
        (argsParse ++ args.filter (fun arg =>
            DiffCommand.parseArgs.knownFound arg argsKnown || !HasPrefix arg "-"),
          argsDifftastic ++ args.filter (fun arg =>
            !DiffCommand.parseArgs.knownFound arg argsKnown && HasPrefix arg "-"))
  | [], _, _ => by simp [DiffCommand.parseArgs.loop]
  | arg :: rest, argsParse, argsDifftastic => by
    have ih := parseArgs_loop_eq argsKnown rest
    simp only [DiffCommand.parseArgs.loop]
    by_cases hk : DiffCommand.parseArgs.knownFound arg argsKnown = true
    · simp [hk, ih]
    · by_cases hp : HasPrefix arg "-" = true
      · simp [hk, hp, ih]
      · simp [hk, hp, ih]

theorem knownFound_iff (arg : String) (argsKnown : List String) :
    DiffCommand.parseArgs.knownFound arg argsKnown = true ↔
      ∃ known ∈ argsKnown,
        HasPrefix arg ("-" ++ known) = true ∨ HasPrefix arg ("--" ++ known) = true := by
  induction argsKnown with
  | nil => simp [DiffCommand.parseArgs.knownFound]
  | cons k rest ih =>
    simp only [DiffCommand.parseArgs.knownFound, List.mem_cons, exists_eq_or_imp]
    by_cases h : (HasPrefix arg ("-" ++ k) || HasPrefix arg ("--" ++ k)) = true
    · rw [if_pos h]
      simp only [Bool.or_eq_true] at h
      simp [h]
    · rw [if_neg h, ih]
      simp only [Bool.or_eq_true] at h
      simp [h]

/-- C8 fails on the code for a flag that is not one of the command's own but begins
like one: `parseArgs` of `diff` hands `--pathsX=1` to the flag parser and does not
pass it through, while the unknown `--tab-width=10` goes to `argsDifftastic`; the
same happens to `-displayed` for `k8s`. -/
theorem parseArgs_keeps_flag_with_known_start :
    (NewDiffCommand.parseArgs ["--pathsX=1", "--tab-width=10", "a.yaml", "b.yaml"]).1 =
        ["--pathsX=1", "a.yaml", "b.yaml"] ∧
    (NewDiffCommand.parseArgs
        ["--pathsX=1", "--tab-width=10", "a.yaml", "b.yaml"]).2.argsDifftastic =
        ["--tab-width=10"] ∧
    (NewK8SCommand.parseArgs ["-displayed", "--paths=kind", "a.yaml", "b.yaml"]).1 =
        ["-displayed", "a.yaml", "b.yaml"] ∧
    (NewK8SCommand.parseArgs ["-displayed", "--paths=kind", "a.yaml", "b.yaml"]).2.argsDifftastic
        = ["--paths=kind"] := by
  decide

end GoDiffYaml
